import Mathlib

/-!
Shallow embedding of the File-Analytics-Dashboard reconciliation engine
(`dashboard/utils.py`, `scan_shared_folder` and `normalize_relpath`), of the
authenticated upload path (`dashboard/views.py`,
`FileListCreateAPIView.perform_create`) and of the `FileMetadata` model
(`dashboard/models.py`).

Modelling conventions:
* timestamps are integer seconds, already in UTC; the naive/aware timezone
  conversion performed by the source on stored values is the identity here;
* paths are POSIX strings (`os.path.sep = '/'`); `os.path.abspath` is
  modelled without the `normpath` step (inputs are assumed normalised), but
  it keeps the crucial behaviour `abspath '' = cwd`;
* a Python `dict` is an insertion-ordered association list: inserting an
  existing key overwrites the value in place, a fresh key is appended;
* Python `str.lower` is modelled by char-wise `Char.toLower` (ASCII folding);
* a per-file `stat` failure (`OSError`, logged and skipped by the source) is
  modelled by the `stat_ok` flag of a disk entry;
* record creation is modelled as always succeeding (the source logs and
  skips a failing `objects.create`; failure-free runs are the ones the
  claims quantify over).
-/

/-- Char-wise lower-casing, the model of Python `str.lower()`. -/
def lowerStr (s : String) : String := ⟨s.data.map Char.toLower⟩

/-- Model of `str.replace('\\', '/')` as used on catalog keys in
`scan_shared_folder` (`key = (f.file_name or '').replace('\\', '/').lower()`). -/
def bslashToSlash (s : String) : String :=
  ⟨s.data.map (fun c => if c = '\\' then '/' else c)⟩

/-- True when the string contains a backslash character. -/
def hasBackslash (s : String) : Bool := s.data.any (fun c => decide (c = '\\'))

/-- POSIX `os.path.isabs`. -/
def isAbs (p : String) : Bool :=
  match p.data with
  | '/' :: _ => true
  | _ => false

/-- Model of `os.path.abspath` without the `normpath` step: the empty path
maps to the current working directory, a relative path is joined to it, an
absolute path is returned unchanged.  In particular `abspath cwd "" = cwd`,
exactly as in CPython (`abspath('')` is the working directory). -/
def abspath (cwd p : String) : String :=
  if p = "" then cwd
  else if isAbs p then p
  else cwd ++ "/" ++ p

/-- Split a character list at `'/'`, keeping empty components (the helper
underlying the component view of a POSIX path). -/
def splitSlash : List Char → List (List Char)
  | [] => [[]]
  | c :: cs =>
    let r := splitSlash cs
    if c = '/' then [] :: r
    else
      match r with
      | [] => [[c]]
      | h :: t => (c :: h) :: t

/-- Non-empty components of a POSIX path. -/
def pathParts (p : String) : List (List Char) :=
  (splitSlash p.data).filter (fun l => decide (l ≠ []))

/-- Length of the common prefix of two component lists. -/
def commonPrefixLen : List (List Char) → List (List Char) → Nat
  | x :: xs, y :: ys => if x = y then commonPrefixLen xs ys + 1 else 0
  | _, _ => 0

/-- Join path components with `'/'`. -/
def joinSlash : List (List Char) → List Char
  | [] => []
  | [l] => l
  | l :: rest => l ++ '/' :: joinSlash rest

/-- Model of POSIX `os.path.relpath path start`: common-prefix removal with
`".."` steps for the remaining components of `start`; returns `"."` when the
two paths coincide.  On POSIX `relpath` never raises, so the `except`
fallback of `normalize_relpath` is dead code in this model. -/
def relpath (path start : String) : String :=
  let p := pathParts path
  let s := pathParts start
  let n := commonPrefixLen p s
  let parts := List.replicate (s.length - n) ['.', '.'] ++ p.drop n
  if parts = [] then "." else ⟨joinSlash parts⟩

/-- Model of `os.path.sep` (POSIX). -/
def pathSep : Char := '/'

/-- Model of `dashboard/utils.py`, `normalize_relpath(path, base)`:
`os.path.abspath` on both arguments, `os.path.relpath`, separators to
forward slashes, then `rel.lstrip('./')`.  Note that Python `lstrip('./')`
strips every leading character belonging to the set `{'.', '/'}`, not the
two-character prefix `"./"`. -/
def normalize_relpath (cwd path base : String) : String :=
  let base_abs := abspath cwd base
  let path_abs := abspath cwd path
  let rel := relpath path_abs base_abs
  let rel' := rel.data.map (fun c => if c = pathSep then '/' else c)
  ⟨rel'.dropWhile (fun c => decide (c = '.') || decide (c = '/'))⟩

/-- Model of `dashboard/models.py`, `FileMetadata`: one catalog record.  `id` is the
database primary key; optional references (`uploaded_by`, `team`,
`modified_by`) are user/team primary keys. -/
structure FileMetadata where
  id : Nat
  file_name : String
  file_size : Int
  file_type : String
  uploaded_by : Option Nat
  upload_date : Int
  last_modified_date : Option Int
  team : Option Nat
  modified_by : Option Nat
  access_count : Nat
deriving DecidableEq, Repr

/-- One regular file met by the `os.walk` phase: its normalised relative
path (original casing), and the `os.path.getsize` / `os.path.getmtime`
results; `stat_ok = false` models the `OSError` branch (file entered in
`disk_map` during the walk, but skipped with a warning in the
classification loop). -/
structure DiskFile where
  rel : String
  size : Int
  mtime : Int
  stat_ok : Bool
deriving DecidableEq, Repr

/-- Python `dict` assignment `m[k] = v`: overwrite in place when the key is
present, append otherwise. -/
def dictInsert {α : Type} (m : List (String × α)) (k : String) (v : α) :
    List (String × α) :=
  if m.any (fun p => decide (p.1 = k)) then
    m.map (fun p => if p.1 = k then (k, v) else p)
  else m ++ [(k, v)]

/-- Python `m.get(k)` / `m[k]`. -/
def dictGet {α : Type} (m : List (String × α)) (k : String) : Option α :=
  (m.find? (fun p => decide (p.1 = k))).map (fun p => p.2)

/-- Python `k in m`. -/
def dictHasKey {α : Type} (m : List (String × α)) (k : String) : Bool :=
  m.any (fun p => decide (p.1 = k))

/-- Case-insensitive catalog key of a record
(`(f.file_name or '').replace('\\', '/').lower()`). -/
def dbKey (f : FileMetadata) : String := lowerStr (bslashToSlash f.file_name)

/-- Case-insensitive disk key of a walked file (`rel.lower()`). -/
def diskKey (d : DiskFile) : String := lowerStr d.rel

/-- The `db_map` built from the full catalog, in queryset order. -/
def dbMapOf (cat : List FileMetadata) : List (String × FileMetadata) :=
  cat.foldl (fun m f => dictInsert m (dbKey f) f) []

/-- The `disk_map` built during the filesystem walk, in walk order. -/
def diskMapOf (files : List DiskFile) : List (String × DiskFile) :=
  files.foldl (fun m d => dictInsert m (diskKey d) d) []

/-- Constant `THRESHOLD = timedelta(seconds=2)`: the skew tolerance, in seconds. -/
def THRESHOLD : Int := 2

/-- The update decision of `scan_shared_folder` for a matched pair: update
when the catalog has no stored instant, or when the disk mtime exceeds the
stored instant plus the tolerance. -/
def should_update (db_last_utc : Option Int) (fs_dt : Int) : Bool :=
  match db_last_utc with
  | none => true
  | some t => decide (fs_dt > t + THRESHOLD)

/-- Extension part (with its dot) of `os.path.splitext`: the suffix starting
at the last dot of the basename, provided some earlier basename character is
not a dot (so `".env"` has no extension). -/
def splitextExt (p : String) : String :=
  let b := (splitSlash p.data).getLastD []
  let tail := b.reverse.takeWhile (fun c => decide (c ≠ '.'))
  if tail.length = b.length then ""
  else
    let i := b.length - tail.length - 1
    if (b.take i).any (fun c => decide (c ≠ '.')) then ⟨b.drop i⟩ else ""

/-- Derived file type: `os.path.splitext(name)[1].lower().lstrip('.')`. -/
def fileTypeOf (name : String) : String :=
  ⟨(lowerStr (splitextExt name)).data.dropWhile (fun c => decide (c = '.'))⟩

/-- The record built by `FileMetadata.objects.create(...)` for an untracked
disk file: disk-cased relative path, disk size, derived type, no uploader,
no modifier, no team, disk mtime; `upload_date` is `auto_now_add` (the run
instant), `access_count` defaults to `0`; `n` is the fresh primary key. -/
def newRecord (n : Nat) (d : DiskFile) (now : Int) : FileMetadata :=
  { id := n
    file_name := d.rel
    file_size := d.size
    file_type := fileTypeOf d.rel
    uploaded_by := none
    upload_date := now
    last_modified_date := some d.mtime
    team := none
    modified_by := none
    access_count := 0 }

/-- The aggregate counters returned by `scan_shared_folder`. -/
structure Stats where
  created : Nat
  updated : Nat
  deleted : Nat
deriving DecidableEq, Repr

/-- Mutable state threaded through a reconciliation run: the catalog rows,
the next fresh primary key, and the counters. -/
structure ScanState where
  catalog : List FileMetadata
  next_id : Nat
  stats : Stats
deriving DecidableEq, Repr

/-- The update applied to a matched record:
`db_obj.last_modified_date = fs_dt; db_obj.file_size = fs_size;
db_obj.modified_by = None;
db_obj.save(update_fields=['last_modified_date', 'file_size', 'modified_by'])` —
exactly those three fields, every other field untouched. -/
def patch (f : FileMetadata) (d : DiskFile) : FileMetadata :=
  { f with last_modified_date := some d.mtime, file_size := d.size, modified_by := none }

/-- One iteration of the disk loop of `scan_shared_folder` (step 3/4 of the
algorithm): stat the file (skip on failure), look the case-folded key up in
`db_map`, and either update (tolerance exceeded or no stored instant),
no-op, or create (untracked file, gated by `create_missing and not dry_run`). -/
def stepDisk (db_map : List (String × FileMetadata)) (create_missing dry_run : Bool)
    (now : Int) (st : ScanState) (e : String × DiskFile) : ScanState :=
  if e.2.stat_ok then
    match dictGet db_map e.1 with
    | some db_obj =>
      if should_update db_obj.last_modified_date e.2.mtime then
        { st with
          catalog :=
            if dry_run then st.catalog
            else st.catalog.map (fun f => if f.id = db_obj.id then patch f e.2 else f)
          stats := { st.stats with updated := st.stats.updated + 1 } }
      else st
    | none =>
      if create_missing && !dry_run then
        { catalog := st.catalog ++ [newRecord st.next_id e.2 now]
          next_id := st.next_id + 1
          stats := { st.stats with created := st.stats.created + 1 } }
      else st
  else st

/-- One iteration of the deletion loop of `scan_shared_folder` (step 5): a
catalog entry whose key has no disk counterpart is removed (by primary key)
unless `dry_run`; the `deleted` counter is incremented in either mode. -/
def stepDelete (disk_map : List (String × DiskFile)) (dry_run : Bool)
    (st : ScanState) (e : String × FileMetadata) : ScanState :=
  if dictHasKey disk_map e.1 then st
  else
    { st with
      catalog :=
        if dry_run then st.catalog
        else st.catalog.filter (fun f => decide (f.id ≠ e.2.id))
      stats := { st.stats with deleted := st.stats.deleted + 1 } }

/-- Ambient environment of a reconciliation run: the process working
directory, `settings.SHARED_FOLDER_PATH`, the `os.path.exists` oracle, the
combined walk/normalise/stat phase (`os.walk` + `normalize_relpath` +
`getmtime`/`getsize` per file), and the run instant (for `auto_now_add`). -/
structure ScanEnv where
  cwd : String
  shared_setting : String
  pathExists : String → Bool
  walk : String → List DiskFile
  now : Int

/-- Computation of `base = os.path.abspath(root_path or settings.SHARED_FOLDER_PATH or '')`. -/
def resolveBase (env : ScanEnv) (root_path : Option String) : String :=
  let rp := match root_path with | none => "" | some s => s
  let chosen := if rp ≠ "" then rp else env.shared_setting
  abspath env.cwd chosen

/-- Largest primary key present in the catalog (fresh keys are allocated
above it). -/
def maxId (cat : List FileMetadata) : Nat :=
  cat.foldl (fun m f => max m f.id) 0

/-- Model of `dashboard/utils.py`, `scan_shared_folder(root_path, create_missing,
dry_run)`: resolve the base (raising `ValueError` when it is empty or does
not exist), build the case-folded `db_map` and `disk_map`, run the disk
loop, then the deletion loop, and return the final catalog with the
counters. -/
def scan_shared_folder (env : ScanEnv) (cat : List FileMetadata)
    (root_path : Option String) (create_missing dry_run : Bool) :
    Except String (List FileMetadata × Stats) :=
  let base := resolveBase env root_path
  if base = "" || !(env.pathExists base) then
    .error ("Shared folder path not configured or not found: " ++ base)
  else
    let db_map := dbMapOf cat
    let disk_map := diskMapOf (env.walk base)
    let st0 : ScanState := ⟨cat, maxId cat + 1, ⟨0, 0, 0⟩⟩
    let st1 := disk_map.foldl (stepDisk db_map create_missing dry_run env.now) st0
    let st2 := db_map.foldl (stepDelete disk_map dry_run) st1
    .ok (st2.catalog, st2.stats)

/-- Whitespace trim of both ends (Python `str.strip()`). -/
def trimChars (l : List Char) : List Char :=
  ((l.dropWhile Char.isWhitespace).reverse.dropWhile Char.isWhitespace).reverse

/-- Django `get_valid_filename`: strip, spaces to underscores, drop every
character outside `[-\w.]` (modelled over ASCII alphanumerics). -/
def get_valid_filename (s : String) : String :=
  ⟨((trimChars s.data).map (fun c => if c = ' ' then '_' else c)).filter
    (fun c => c.isAlphanum || decide (c = '-') || decide (c = '_') || decide (c = '.'))⟩

/-- Stem of `os.path.splitext` (everything before the extension). -/
def splitextStem (p : String) : String := p.dropRight (splitextExt p).length

/-- Environment of an authenticated upload: the shared-folder base, the set
of absolute paths already existing on disk, the request instant, and the
timestamp string used by the collision-renaming policy
(`timezone.now().strftime("%Y%m%d%H%M%S")`). -/
structure UploadEnv where
  base : String
  diskPaths : List String
  now : Int
  stamp : String

/-- Model of `dashboard/views.py`, `FileListCreateAPIView.perform_create`: sanitise
the uploaded name, append a timestamp suffix when the exact target path
already exists on disk, write the file, and create the catalog record
attributed to the acting user and their team.  Returns the new catalog and
the stored name. -/
def perform_create (env : UploadEnv) (cat : List FileMetadata)
    (user team : Nat) (orig_name : String) (fsize : Int) :
    List FileMetadata × String :=
  let safe_name := get_valid_filename orig_name
  let target_abs := env.base ++ "/" ++ safe_name
  let final_name :=
    if env.diskPaths.contains target_abs then
      splitextStem safe_name ++ "_" ++ env.stamp ++ splitextExt safe_name
    else safe_name
  let rec_new : FileMetadata :=
    { id := maxId cat + 1
      file_name := final_name
      file_size := fsize
      file_type := fileTypeOf final_name
      uploaded_by := some user
      upload_date := env.now
      last_modified_date := some env.now
      team := some team
      modified_by := some user
      access_count := 0 }
  (cat ++ [rec_new], final_name)

/-- The catalog invariant of the spec (§3): no two records share a
case-folded relative path. -/
def foldedUnique (cat : List FileMetadata) : Prop := (cat.map dbKey).Nodup

/-- Well-formed catalog: the spec's case-folded-uniqueness invariant
together with primary-key uniqueness (guaranteed by the database). -/
def WfCatalog (cat : List FileMetadata) : Prop :=
  (cat.map dbKey).Nodup ∧ (cat.map (fun f => f.id)).Nodup

/-- Separator-sane disk listing: no walked relative path contains a literal
backslash character (always true on Windows, where the walk itself converts
separators; a POSIX file name may contain one). -/
def WfDisk (files : List DiskFile) : Prop :=
  ∀ d ∈ files, hasBackslash d.rel = false

/-! ### Helper functions describing a run (used to state the fold lemmas) -/

/-- Number of disk entries classified as updated: statable, matched in
`db_map`, and passing the `should_update` test. -/
def cntUpd (db : List (String × FileMetadata)) (D : List (String × DiskFile)) : Nat :=
  D.countP (fun e => e.2.stat_ok &&
    (match dictGet db e.1 with
     | some f => should_update f.last_modified_date e.2.mtime
     | none => false))

/-- Number of disk entries that are statable and untracked. -/
def cntNew (db : List (String × FileMetadata)) (D : List (String × DiskFile)) : Nat :=
  D.countP (fun e => e.2.stat_ok && !(dictHasKey db e.1))

/-- Number of catalog entries without a disk counterpart. -/
def cntDel (db : List (String × FileMetadata)) (D : List (String × DiskFile)) : Nat :=
  db.countP (fun p => !(dictHasKey D p.1))

/-- Does disk entry `e` trigger an update of the record with primary key `i`? -/
def hitBy (db : List (String × FileMetadata)) (e : String × DiskFile) (i : Nat) : Bool :=
  e.2.stat_ok &&
    (match dictGet db e.1 with
     | some f => decide (f.id = i) && should_update f.last_modified_date e.2.mtime
     | none => false)

/-- The disk entry (if any) whose classification updates primary key `i`. -/
def updFor (db : List (String × FileMetadata)) (D : List (String × DiskFile))
    (i : Nat) : Option DiskFile :=
  (D.find? (fun e => hitBy db e i)).map (fun e => e.2)

/-- Final value of a pre-existing record after the disk loop. -/
def applyUpd (db : List (String × FileMetadata)) (D : List (String × DiskFile))
    (f : FileMetadata) : FileMetadata :=
  match updFor db D f.id with
  | some d => patch f d
  | none => f

/-- The records created for untracked disk entries, with consecutive fresh
primary keys starting at `n`. -/
def newsOf (db : List (String × FileMetadata)) (now : Int) :
    List (String × DiskFile) → Nat → List FileMetadata
  | [], _ => []
  | e :: rest, n =>
    if e.2.stat_ok && !(dictHasKey db e.1) then
      newRecord n e.2 now :: newsOf db now rest (n + 1)
    else newsOf db now rest n

/-- Is the record with the primary key of `f` slated for deletion? -/
def delPred (db : List (String × FileMetadata)) (D : List (String × DiskFile))
    (f : FileMetadata) : Bool :=
  db.any (fun p => !(dictHasKey D p.1) && decide (p.2.id = f.id))

/-! ### Dictionary lemmas -/

theorem dictHasKey_eq_keys {α : Type} (m : List (String × α)) (k : String) :
    dictHasKey m k = (m.map Prod.fst).any (fun s => decide (s = k)) := by
  induction m with
  | nil => rfl
  | cons p m ih =>
    simp only [dictHasKey, List.any_cons, List.map_cons] at ih ⊢
    rw [ih]

theorem dictHasKey_append {α : Type} (m m' : List (String × α)) (k : String) :
    dictHasKey (m ++ m') k = (dictHasKey m k || dictHasKey m' k) := by
  simp [dictHasKey, List.any_append]

theorem dictInsert_of_not_has {α : Type} {m : List (String × α)} {k : String}
    (v : α) (h : dictHasKey m k = false) : dictInsert m k v = m ++ [(k, v)] := by
  simp only [dictHasKey] at h
  simp [dictInsert, h]

theorem dictInsert_keys_of_has {α : Type} {m : List (String × α)} {k : String}
    (v : α) (h : dictHasKey m k = true) :
    (dictInsert m k v).map Prod.fst = m.map Prod.fst := by
  simp only [dictHasKey] at h
  simp only [dictInsert, h, if_true, List.map_map]
  apply List.map_congr_left
  intro p _
  by_cases hp : p.1 = k
  · simp [Function.comp, hp]
  · simp [Function.comp, hp]

theorem mem_dictInsert {α : Type} {m : List (String × α)} {k : String} {v : α}
    {p : String × α} (hp : p ∈ dictInsert m k v) : p ∈ m ∨ p = (k, v) := by
  by_cases h : m.any (fun q => decide (q.1 = k)) = true
  · simp only [dictInsert, h, if_true, List.mem_map] at hp
    obtain ⟨q, hq, hqe⟩ := hp
    by_cases hqk : q.1 = k
    · simp only [hqk, if_true] at hqe
      exact Or.inr hqe.symm
    · simp only [hqk, if_false] at hqe
      exact Or.inl (hqe ▸ hq)
  · have h' : dictHasKey m k = false := by
      simp only [dictHasKey]
      exact Bool.eq_false_iff.mpr h
    rw [dictInsert_of_not_has v h'] at hp
    simpa using hp

theorem dictHasKey_dictInsert {α : Type} (m : List (String × α)) (k k' : String)
    (v : α) :
    dictHasKey (dictInsert m k' v) k = (dictHasKey m k || decide (k = k')) := by
  by_cases h : dictHasKey m k' = true
  · rw [dictHasKey_eq_keys, dictInsert_keys_of_has v h, ← dictHasKey_eq_keys]
    by_cases hkk : k = k'
    · subst hkk
      simp [h]
    · simp [hkk]
  · rw [dictInsert_of_not_has v (Bool.eq_false_iff.mpr h), dictHasKey_append]
    have : dictHasKey [(k', v)] k = decide (k = k') := by
      simp [dictHasKey, eq_comm]
    rw [this]

theorem dictGet_cons {α : Type} (p : String × α) (m : List (String × α)) (k : String) :
    dictGet (p :: m) k = if p.1 = k then some p.2 else dictGet m k := by
  by_cases h : p.1 = k
  · rw [if_pos h]
    unfold dictGet
    rw [List.find?_cons_of_pos _ (by simp [h])]
    rfl
  · rw [if_neg h]
    unfold dictGet
    rw [List.find?_cons_of_neg _ (by simp [h])]

theorem dictGet_eq_none_iff {α : Type} (m : List (String × α)) (k : String) :
    dictGet m k = none ↔ dictHasKey m k = false := by
  induction m with
  | nil => simp [dictGet, dictHasKey]
  | cons p m ih =>
    rw [dictGet_cons]
    by_cases h : p.1 = k
    · simp [h, dictHasKey, List.any_cons]
    · rw [if_neg h]
      have hh : dictHasKey (p :: m) k = dictHasKey m k := by
        simp only [dictHasKey, List.any_cons]
        simp [h]
      rw [hh]
      exact ih

theorem dictGet_mem {α : Type} {m : List (String × α)} {k : String} {v : α}
    (h : dictGet m k = some v) : (k, v) ∈ m := by
  unfold dictGet at h
  cases hf : m.find? (fun p => decide (p.1 = k)) with
  | none => rw [hf] at h; simp at h
  | some q =>
    rw [hf] at h
    have h2 : q.2 = v := by simpa using h
    have hp := List.find?_some hf
    have hm : q ∈ m := List.mem_of_find?_eq_some hf
    simp only [decide_eq_true_eq] at hp
    have : (k, v) = q := by
      cases q
      simp only [Prod.mk.injEq]
      exact ⟨hp.symm, h2.symm⟩
    rw [this]
    exact hm

theorem dictGet_map_key {α : Type} (key : α → String) (l : List α) (k : String) :
    dictGet (l.map (fun x => (key x, x))) k = l.find? (fun x => decide (key x = k)) := by
  induction l with
  | nil => rfl
  | cons a l ih =>
    simp only [List.map_cons]
    rw [dictGet_cons]
    by_cases h : key a = k
    · rw [if_pos h, List.find?_cons_of_pos _ (by simp [h])]
    · rw [if_neg h, List.find?_cons_of_neg _ (by simp [h])]
      exact ih

theorem dictInsert_keys_nodup {α : Type} (m : List (String × α)) (k : String) (v : α)
    (h : (m.map Prod.fst).Nodup) : ((dictInsert m k v).map Prod.fst).Nodup := by
  by_cases hk : dictHasKey m k = true
  · rw [dictInsert_keys_of_has v hk]
    exact h
  · rw [dictInsert_of_not_has v (Bool.eq_false_iff.mpr hk)]
    rw [List.map_append]
    rw [List.nodup_append]
    refine ⟨h, List.nodup_singleton k, ?_⟩
    intro s hs hs'
    simp only [List.map_cons, List.map_nil, List.mem_singleton] at hs'
    subst hs'
    rw [dictHasKey_eq_keys] at hk
    simp only [Bool.not_eq_true, List.any_eq_false, decide_eq_true_eq] at hk
    exact hk s hs rfl

theorem foldl_dictInsert_keys_nodup {α : Type} (key : α → String) (l : List α) :
    ∀ m : List (String × α), (m.map Prod.fst).Nodup →
    ((l.foldl (fun m x => dictInsert m (key x) x) m).map Prod.fst).Nodup := by
  induction l with
  | nil => intro m h; exact h
  | cons a l ih =>
    intro m h
    simp only [List.foldl_cons]
    exact ih _ (dictInsert_keys_nodup m (key a) a h)

theorem foldl_dictInsert_mem {α : Type} (key : α → String) (l : List α) :
    ∀ (m : List (String × α)) (p : String × α),
    p ∈ l.foldl (fun m x => dictInsert m (key x) x) m →
    p ∈ m ∨ ∃ x ∈ l, p = (key x, x) := by
  induction l with
  | nil => intro m p hp; exact Or.inl hp
  | cons a l ih =>
    intro m p hp
    simp only [List.foldl_cons] at hp
    rcases ih _ p hp with h | ⟨x, hx, hpe⟩
    · rcases mem_dictInsert h with h' | h'
      · exact Or.inl h'
      · exact Or.inr ⟨a, List.mem_cons_self a l, h'⟩
    · exact Or.inr ⟨x, List.mem_cons_of_mem a hx, hpe⟩

theorem foldl_dictInsert_hasKey {α : Type} (key : α → String) (l : List α) :
    ∀ (m : List (String × α)) (k : String),
    dictHasKey (l.foldl (fun m x => dictInsert m (key x) x) m) k
      = (dictHasKey m k || l.any (fun x => decide (key x = k))) := by
  induction l with
  | nil => intro m k; simp
  | cons a l ih =>
    intro m k
    simp only [List.foldl_cons, List.any_cons]
    rw [ih]
    have h1 : dictHasKey (dictInsert m (key a) a) k
        = (dictHasKey m k || decide (k = key a)) :=
      dictHasKey_dictInsert m k (key a) a
    rw [h1]
    have h2 : decide (k = key a) = decide (key a = k) := by simp [eq_comm]
    rw [h2, Bool.or_assoc]

theorem foldl_dictInsert_eq {α : Type} (key : α → String) (l : List α) :
    ∀ m : List (String × α), (l.map key).Nodup →
    (∀ x ∈ l, dictHasKey m (key x) = false) →
    l.foldl (fun m x => dictInsert m (key x) x) m = m ++ l.map (fun x => (key x, x)) := by
  induction l with
  | nil => intro m _ _; simp
  | cons a l ih =>
    intro m hnd hfresh
    simp only [List.map_cons, List.nodup_cons] at hnd
    simp only [List.foldl_cons, List.map_cons]
    rw [dictInsert_of_not_has a (hfresh a (List.mem_cons_self a l))]
    rw [ih (m ++ [(key a, a)]) hnd.2 ?_]
    · simp
    · intro x hx
      rw [dictHasKey_append]
      have h1 : dictHasKey m (key x) = false := hfresh x (List.mem_cons_of_mem a hx)
      have h2 : dictHasKey [(key a, a)] (key x) = false := by
        simp only [dictHasKey, List.any_cons, List.any_nil, Bool.or_false,
          decide_eq_false_iff_not]
        intro hcontra
        exact hnd.1 (hcontra ▸ List.mem_map_of_mem key hx)
      rw [h1, h2]
      rfl

theorem dbMapOf_eq {cat : List FileMetadata} (h : (cat.map dbKey).Nodup) :
    dbMapOf cat = cat.map (fun f => (dbKey f, f)) := by
  have := foldl_dictInsert_eq dbKey cat [] h (by intro x _; rfl)
  simpa [dbMapOf] using this

theorem diskMapOf_wf {files : List DiskFile} :
    ∀ p ∈ diskMapOf files, p.1 = diskKey p.2 ∧ p.2 ∈ files := by
  intro p hp
  rcases foldl_dictInsert_mem diskKey files [] p hp with h | ⟨x, hx, hpe⟩
  · simp at h
  · subst hpe
    exact ⟨rfl, hx⟩

theorem diskMapOf_keys_nodup (files : List DiskFile) :
    ((diskMapOf files).map Prod.fst).Nodup :=
  foldl_dictInsert_keys_nodup diskKey files [] List.nodup_nil

theorem dictHasKey_diskMapOf (files : List DiskFile) (k : String) :
    dictHasKey (diskMapOf files) k = files.any (fun d => decide (diskKey d = k)) := by
  have := foldl_dictInsert_hasKey diskKey files [] k
  simpa [diskMapOf, dictHasKey] using this

theorem dictHasKey_of_get_some {α : Type} {m : List (String × α)} {k : String}
    {v : α} (h : dictGet m k = some v) : dictHasKey m k = true := by
  by_contra hc
  have h0 := (dictGet_eq_none_iff m k).mpr (Bool.eq_false_iff.mpr hc)
  rw [h] at h0
  exact Option.noConfusion h0

theorem diskFold_stats (db : List (String × FileMetadata)) (cm dr : Bool) (now : Int) :
    ∀ (D : List (String × DiskFile)) (st : ScanState),
    (D.foldl (stepDisk db cm dr now) st).stats =
      ⟨st.stats.created + (if cm && !dr then cntNew db D else 0),
       st.stats.updated + cntUpd db D,
       st.stats.deleted⟩ := by
  intro D
  induction D with
  | nil =>
    intro st
    simp [cntNew, cntUpd]
  | cons e D ih =>
    intro st
    simp only [List.foldl_cons]
    rw [ih]
    cases hstat : e.2.stat_ok with
    | false =>
      simp [stepDisk, hstat, cntNew, cntUpd, List.countP_cons]
    | true =>
      cases hget : dictGet db e.1 with
      | some f =>
        have hhas : dictHasKey db e.1 = true := dictHasKey_of_get_some hget
        cases hsu : should_update f.last_modified_date e.2.mtime with
        | true =>
          simp [stepDisk, hstat, hget, hsu, hhas, cntNew, cntUpd, List.countP_cons,
            Nat.add_assoc, Nat.add_comm 1]
        | false =>
          simp [stepDisk, hstat, hget, hsu, hhas, cntNew, cntUpd, List.countP_cons]
      | none =>
        have hhas : dictHasKey db e.1 = false := (dictGet_eq_none_iff db e.1).mp hget
        cases hcd : (cm && !dr) with
        | true =>
          simp [stepDisk, hstat, hget, hhas, hcd, cntNew, cntUpd, List.countP_cons,
            Nat.add_assoc, Nat.add_comm 1]
        | false =>
          simp [stepDisk, hstat, hget, hhas, hcd, cntNew, cntUpd, List.countP_cons]

theorem diskFold_dry (db : List (String × FileMetadata)) (cm : Bool) (now : Int) :
    ∀ (D : List (String × DiskFile)) (st : ScanState),
    (D.foldl (stepDisk db cm true now) st).catalog = st.catalog ∧
    (D.foldl (stepDisk db cm true now) st).next_id = st.next_id := by
  intro D
  induction D with
  | nil => intro st; exact ⟨rfl, rfl⟩
  | cons e D ih =>
    intro st
    simp only [List.foldl_cons]
    have hstep : (stepDisk db cm true now st e).catalog = st.catalog ∧
        (stepDisk db cm true now st e).next_id = st.next_id := by
      cases hstat : e.2.stat_ok with
      | false => simp [stepDisk, hstat]
      | true =>
        cases hget : dictGet db e.1 with
        | some f =>
          cases hsu : should_update f.last_modified_date e.2.mtime with
          | true => simp [stepDisk, hstat, hget, hsu]
          | false => simp [stepDisk, hstat, hget, hsu]
        | none => simp [stepDisk, hstat, hget]
    obtain ⟨h1, h2⟩ := ih (stepDisk db cm true now st e)
    exact ⟨h1.trans hstep.1, h2.trans hstep.2⟩

theorem patch_id (f : FileMetadata) (d : DiskFile) : (patch f d).id = f.id := rfl

theorem hitBy_of_stat_false {db : List (String × FileMetadata)} {e : String × DiskFile}
    (h : e.2.stat_ok = false) (i : Nat) : hitBy db e i = false := by
  simp [hitBy, h]

theorem hitBy_of_get_none {db : List (String × FileMetadata)} {e : String × DiskFile}
    (h : dictGet db e.1 = none) (i : Nat) : hitBy db e i = false := by
  simp [hitBy, h]

theorem hitBy_of_no_update {db : List (String × FileMetadata)} {e : String × DiskFile}
    {f : FileMetadata} (hf : dictGet db e.1 = some f)
    (h : should_update f.last_modified_date e.2.mtime = false) (i : Nat) :
    hitBy db e i = false := by
  simp [hitBy, hf, h]

theorem applyUpd_cons_of_miss {db : List (String × FileMetadata)} {e : String × DiskFile}
    (D : List (String × DiskFile)) (h : ∀ i, hitBy db e i = false) (g : FileMetadata) :
    applyUpd db (e :: D) g = applyUpd db D g := by
  unfold applyUpd updFor
  rw [List.find?_cons_of_neg _ (by simp [h g.id])]

theorem updFor_eq_none {db : List (String × FileMetadata)} {i : Nat}
    (D : List (String × DiskFile))
    (h : ∀ e ∈ D, hitBy db e i = false) : updFor db D i = none := by
  unfold updFor
  rw [List.find?_eq_none.mpr (by intro e he hc; rw [h e he] at hc; exact Bool.noConfusion hc)]
  rfl

theorem hitBy_false_of_id_ne {db : List (String × FileMetadata)} {i : Nat}
    (h : ∀ p ∈ db, p.2.id ≠ i) (e : String × DiskFile) : hitBy db e i = false := by
  cases hget : dictGet db e.1 with
  | none => exact hitBy_of_get_none hget i
  | some f =>
    have hne : f.id ≠ i := h (e.1, f) (dictGet_mem hget)
    simp [hitBy, hget, hne]

theorem updFor_tail_none {db : List (String × FileMetadata)}
    (Hids : (db.map (fun p => p.2.id)).Nodup)
    {e : String × DiskFile} {f₀ : FileMetadata} (hget : dictGet db e.1 = some f₀)
    {D : List (String × DiskFile)} (hD : ∀ e' ∈ D, e'.1 ≠ e.1) :
    updFor db D f₀.id = none := by
  apply updFor_eq_none
  intro e' he'
  cases hget' : dictGet db e'.1 with
  | none => exact hitBy_of_get_none hget' f₀.id
  | some f' =>
    have hne : f'.id ≠ f₀.id := by
      intro hid
      have hm1 := dictGet_mem hget
      have hm2 := dictGet_mem hget'
      have hpe : ((e'.1, f') : String × FileMetadata) = (e.1, f₀) :=
        List.inj_on_of_nodup_map Hids hm2 hm1 (by simpa using hid)
      have hkey := congrArg Prod.fst hpe
      simp only [] at hkey
      exact hD e' he' hkey
    simp [hitBy, hget', hne]

theorem newsOf_cons (db : List (String × FileMetadata)) (now : Int)
    (e : String × DiskFile) (D : List (String × DiskFile)) (n : Nat) :
    newsOf db now (e :: D) n =
      if e.2.stat_ok && !(dictHasKey db e.1) then
        newRecord n e.2 now :: newsOf db now D (n + 1)
      else newsOf db now D n := rfl

theorem diskFold_catalog (db : List (String × FileMetadata)) (cm : Bool) (now : Int)
    (Hids : (db.map (fun p => p.2.id)).Nodup) :
    ∀ (D : List (String × DiskFile)) (st : ScanState),
    (D.map Prod.fst).Nodup →
    (∀ p ∈ db, p.2.id < st.next_id) →
    (D.foldl (stepDisk db cm false now) st).catalog =
      st.catalog.map (applyUpd db D) ++ (if cm then newsOf db now D st.next_id else []) ∧
    (D.foldl (stepDisk db cm false now) st).next_id =
      st.next_id + (if cm then cntNew db D else 0) := by
  intro D
  induction D with
  | nil =>
    intro st _ _
    constructor
    · have h1 : st.catalog.map (applyUpd db []) = st.catalog := by
        rw [List.map_congr_left (g := fun g => g) (by intro g _; rfl), List.map_id']
      simp [h1, newsOf]
    · simp [cntNew]
  | cons e D ih =>
    intro st hD hn
    simp only [List.map_cons, List.nodup_cons] at hD
    simp only [List.foldl_cons]
    cases hstat : e.2.stat_ok with
    | false =>
      have hstep : stepDisk db cm false now st e = st := by
        simp [stepDisk, hstat]
      rw [hstep]
      obtain ⟨hc, hn'⟩ := ih st hD.2 hn
      refine ⟨?_, ?_⟩
      · rw [hc]
        rw [List.map_congr_left
          (by intro g _; exact (applyUpd_cons_of_miss D (hitBy_of_stat_false hstat) g).symm)]
        rw [newsOf_cons]
        simp [hstat]
      · rw [hn']
        have : cntNew db (e :: D) = cntNew db D := by
          simp [cntNew, List.countP_cons, hstat]
        rw [this]
    | true =>
      cases hget : dictGet db e.1 with
      | none =>
        have hhas : dictHasKey db e.1 = false := (dictGet_eq_none_iff db e.1).mp hget
        cases cm with
        | false =>
          have hstep : stepDisk db false false now st e = st := by
            simp [stepDisk, hstat, hget]
          rw [hstep]
          obtain ⟨hc, hn'⟩ := ih st hD.2 hn
          refine ⟨?_, by simpa using hn'⟩
          rw [hc]
          rw [List.map_congr_left
            (by intro g _; exact (applyUpd_cons_of_miss D (hitBy_of_get_none hget) g).symm)]
          simp
        | true =>
          have hstep : stepDisk db true false now st e =
              { catalog := st.catalog ++ [newRecord st.next_id e.2 now]
                next_id := st.next_id + 1
                stats := { st.stats with created := st.stats.created + 1 } } := by
            simp [stepDisk, hstat, hget]
          rw [hstep]
          obtain ⟨hc, hn'⟩ := ih
            { catalog := st.catalog ++ [newRecord st.next_id e.2 now]
              next_id := st.next_id + 1
              stats := { st.stats with created := st.stats.created + 1 } }
            hD.2 (by intro p hp; exact Nat.lt_succ_of_lt (hn p hp))
          refine ⟨?_, ?_⟩
          · rw [hc]
            simp only [List.map_append, if_true, List.map_cons, List.map_nil]
            have hr : applyUpd db D (newRecord st.next_id e.2 now) =
                newRecord st.next_id e.2 now := by
              unfold applyUpd
              rw [updFor_eq_none D
                (fun e' _ => hitBy_false_of_id_ne
                  (by intro p hp; exact Nat.ne_of_lt (hn p hp)) e')]
            rw [List.map_congr_left
              (by intro g _; exact (applyUpd_cons_of_miss D (hitBy_of_get_none hget) g).symm)]
            rw [hr, newsOf_cons]
            simp [hstat, hhas]
          · rw [hn']
            have : cntNew db (e :: D) = cntNew db D + 1 := by
              simp [cntNew, List.countP_cons, hstat, hhas]
            rw [this]
            simp [Nat.add_assoc, Nat.add_comm 1]
      | some f₀ =>
        have hhas : dictHasKey db e.1 = true := dictHasKey_of_get_some hget
        cases hsu : should_update f₀.last_modified_date e.2.mtime with
        | false =>
          have hstep : stepDisk db cm false now st e = st := by
            simp [stepDisk, hstat, hget, hsu]
          rw [hstep]
          obtain ⟨hc, hn'⟩ := ih st hD.2 hn
          refine ⟨?_, ?_⟩
          · rw [hc]
            rw [List.map_congr_left
              (by intro g _; exact (applyUpd_cons_of_miss D (hitBy_of_no_update hget hsu) g).symm)]
            rw [newsOf_cons]
            simp [hhas]
          · rw [hn']
            have : cntNew db (e :: D) = cntNew db D := by
              simp [cntNew, List.countP_cons, hhas]
            rw [this]
        | true =>
          have hstep : stepDisk db cm false now st e =
              { st with
                catalog := st.catalog.map (fun f => if f.id = f₀.id then patch f e.2 else f)
                stats := { st.stats with updated := st.stats.updated + 1 } } := by
            simp [stepDisk, hstat, hget, hsu]
          rw [hstep]
          obtain ⟨hc, hn'⟩ := ih
            { st with
              catalog := st.catalog.map (fun f => if f.id = f₀.id then patch f e.2 else f)
              stats := { st.stats with updated := st.stats.updated + 1 } }
            hD.2 (by intro p hp; exact hn p hp)
          refine ⟨?_, ?_⟩
          · rw [hc]
            simp only [List.map_map]
            have hfun : ∀ g ∈ st.catalog,
                (applyUpd db D ∘ fun f => if f.id = f₀.id then patch f e.2 else f) g
                  = applyUpd db (e :: D) g := by
              intro g _
              simp only [Function.comp]
              by_cases hgid : g.id = f₀.id
              · rw [if_pos hgid]
                have h1 : applyUpd db D (patch g e.2) = patch g e.2 := by
                  unfold applyUpd
                  rw [patch_id, hgid,
                    updFor_tail_none Hids hget
                      (by intro e' he' hk; exact hD.1 (hk ▸ List.mem_map_of_mem Prod.fst he'))]
                rw [h1]
                unfold applyUpd updFor
                rw [List.find?_cons_of_pos _ (by simp [hitBy, hstat, hget, hsu, hgid])]
                rfl
              · rw [if_neg hgid]
                unfold applyUpd updFor
                rw [List.find?_cons_of_neg _
                  (by simp [hitBy, hstat, hget, hsu]; intro hcontra; exact hgid hcontra.symm)]
            rw [List.map_congr_left hfun]
            rw [newsOf_cons]
            simp [hhas]
          · rw [hn']
            have : cntNew db (e :: D) = cntNew db D := by
              simp [cntNew, List.countP_cons, hhas]
            rw [this]

theorem delFold_stats (D : List (String × DiskFile)) (dr : Bool) :
    ∀ (db : List (String × FileMetadata)) (st : ScanState),
    (db.foldl (stepDelete D dr) st).stats =
      ⟨st.stats.created, st.stats.updated, st.stats.deleted + cntDel db D⟩ := by
  intro db
  induction db with
  | nil => intro st; simp [cntDel]
  | cons p db ih =>
    intro st
    simp only [List.foldl_cons]
    rw [ih]
    cases hhas : dictHasKey D p.1 with
    | true => simp [stepDelete, hhas, cntDel, List.countP_cons]
    | false =>
      simp [stepDelete, hhas, cntDel, List.countP_cons, Nat.add_assoc, Nat.add_comm 1]

theorem delFold_dry (D : List (String × DiskFile)) :
    ∀ (db : List (String × FileMetadata)) (st : ScanState),
    (db.foldl (stepDelete D true) st).catalog = st.catalog ∧
    (db.foldl (stepDelete D true) st).next_id = st.next_id := by
  intro db
  induction db with
  | nil => intro st; exact ⟨rfl, rfl⟩
  | cons p db ih =>
    intro st
    simp only [List.foldl_cons]
    have hstep : (stepDelete D true st p).catalog = st.catalog ∧
        (stepDelete D true st p).next_id = st.next_id := by
      cases hhas : dictHasKey D p.1 with
      | true => simp [stepDelete, hhas]
      | false => simp [stepDelete, hhas]
    obtain ⟨h1, h2⟩ := ih (stepDelete D true st p)
    exact ⟨h1.trans hstep.1, h2.trans hstep.2⟩

theorem delPred_cons_skip {D : List (String × DiskFile)} {p : String × FileMetadata}
    (db : List (String × FileMetadata)) (hhas : dictHasKey D p.1 = true)
    (g : FileMetadata) : delPred (p :: db) D g = delPred db D g := by
  simp [delPred, List.any_cons, hhas]

theorem delFold_catalog (D : List (String × DiskFile)) :
    ∀ (db : List (String × FileMetadata)) (st : ScanState),
    (db.foldl (stepDelete D false) st).catalog =
      st.catalog.filter (fun g => !(delPred db D g)) ∧
    (db.foldl (stepDelete D false) st).next_id = st.next_id := by
  intro db
  induction db with
  | nil =>
    intro st
    refine ⟨?_, rfl⟩
    have : ∀ g ∈ st.catalog, (fun g => !(delPred ([] : List (String × FileMetadata)) D g)) g
        = (fun _ => true) g := by
      intro g _
      simp [delPred]
    rw [List.filter_congr this, List.filter_true]
    rfl
  | cons p db ih =>
    intro st
    simp only [List.foldl_cons]
    cases hhas : dictHasKey D p.1 with
    | true =>
      have hstep : stepDelete D false st p = st := by
        simp [stepDelete, hhas]
      rw [hstep]
      obtain ⟨h1, h2⟩ := ih st
      refine ⟨?_, h2⟩
      rw [h1]
      exact List.filter_congr (by intro g _; rw [delPred_cons_skip db hhas g])
    | false =>
      have hstep : stepDelete D false st p =
          { st with
            catalog := st.catalog.filter (fun f => decide (f.id ≠ p.2.id))
            stats := { st.stats with deleted := st.stats.deleted + 1 } } := by
        simp [stepDelete, hhas]
      rw [hstep]
      obtain ⟨h1, h2⟩ := ih
        { st with
          catalog := st.catalog.filter (fun f => decide (f.id ≠ p.2.id))
          stats := { st.stats with deleted := st.stats.deleted + 1 } }
      refine ⟨?_, h2⟩
      rw [h1]
      simp only [List.filter_filter]
      apply List.filter_congr
      intro g _
      by_cases hid : p.2.id = g.id
      · simp [delPred, List.any_cons, hhas, hid]
      · have hid' : g.id ≠ p.2.id := fun hc => hid hc.symm
        simp [delPred, List.any_cons, hhas, hid, hid']

theorem foldl_max_init_le (l : List FileMetadata) :
    ∀ a : Nat, a ≤ l.foldl (fun m f => max m f.id) a := by
  induction l with
  | nil => intro a; exact Nat.le_refl a
  | cons f l ih =>
    intro a
    exact Nat.le_trans (Nat.le_max_left a f.id) (ih (max a f.id))

theorem foldl_max_mem_le (l : List FileMetadata) :
    ∀ (a : Nat) (f : FileMetadata), f ∈ l → f.id ≤ l.foldl (fun m g => max m g.id) a := by
  induction l with
  | nil => intro a f hf; exact absurd hf (List.not_mem_nil f)
  | cons g l ih =>
    intro a f hf
    rcases List.mem_cons.mp hf with hfe | hfl
    · subst hfe
      exact Nat.le_trans (Nat.le_max_right a f.id) (foldl_max_init_le l (max a f.id))
    · exact ih (max a g.id) f hfl

theorem le_maxId {cat : List FileMetadata} {f : FileMetadata} (hf : f ∈ cat) :
    f.id ≤ maxId cat :=
  foldl_max_mem_le cat 0 f hf

theorem dbMap_ids (cat : List FileMetadata) :
    (cat.map (fun f => (dbKey f, f))).map (fun p => p.2.id) = cat.map (fun f => f.id) := by
  rw [List.map_map]
  rfl

theorem dictHasKey_map_key {α : Type} (key : α → String) (l : List α) (k : String) :
    dictHasKey (l.map (fun x => (key x, x))) k = l.any (fun x => decide (key x = k)) := by
  induction l with
  | nil => rfl
  | cons a l ih =>
    simp only [List.map_cons, dictHasKey, List.any_cons] at ih ⊢
    rw [ih]

theorem applyUpd_id (db : List (String × FileMetadata)) (D : List (String × DiskFile))
    (f : FileMetadata) : (applyUpd db D f).id = f.id := by
  unfold applyUpd
  cases h : updFor db D f.id with
  | none => rfl
  | some d => exact patch_id f d

theorem newsOf_id_ge (db : List (String × FileMetadata)) (now : Int) :
    ∀ (D : List (String × DiskFile)) (n : Nat) (r : FileMetadata),
    r ∈ newsOf db now D n → n ≤ r.id := by
  intro D
  induction D with
  | nil => intro n r hr; exact absurd hr (List.not_mem_nil r)
  | cons e D ih =>
    intro n r hr
    rw [newsOf_cons] at hr
    by_cases hg : (e.2.stat_ok && !(dictHasKey db e.1)) = true
    · rw [if_pos hg] at hr
      rcases List.mem_cons.mp hr with hre | hrD
      · subst hre
        exact Nat.le_refl n
      · exact Nat.le_trans (Nat.le_succ n) (ih (n + 1) r hrD)
    · rw [if_neg hg] at hr
      exact ih n r hr

theorem delPred_false_of_big {db : List (String × FileMetadata)}
    {D : List (String × DiskFile)} {r : FileMetadata}
    (h : ∀ p ∈ db, p.2.id ≠ r.id) : delPred db D r = false := by
  unfold delPred
  rw [List.any_eq_false]
  intro p hp
  simp only [Bool.and_eq_true, decide_eq_true_eq, not_and]
  intro _
  exact h p hp

theorem delPred_map_form {cat : List FileMetadata} {D : List (String × DiskFile)}
    (Hids : (cat.map (fun f => f.id)).Nodup) {f : FileMetadata} (hf : f ∈ cat)
    (g : FileMetadata) (hgid : g.id = f.id) :
    delPred (cat.map (fun f => (dbKey f, f))) D g = !(dictHasKey D (dbKey f)) := by
  cases hk : dictHasKey D (dbKey f) with
  | true =>
    simp only [Bool.not_true]
    unfold delPred
    rw [List.any_eq_false]
    intro p hp
    simp only [Bool.and_eq_true, decide_eq_true_eq, Bool.not_eq_true]
    intro ⟨hp1, hp2⟩
    obtain ⟨f', hf', hpe⟩ := List.mem_map.mp hp
    rw [← hpe] at hp1 hp2
    have hfid : f'.id = f.id := Eq.trans hp2 hgid
    have hfe : f' = f := List.inj_on_of_nodup_map Hids hf' hf (by simpa using hfid)
    rw [hfe] at hp1
    simp [hk] at hp1
  | false =>
    simp only [Bool.not_false]
    unfold delPred
    rw [List.any_eq_true]
    refine ⟨(dbKey f, f), List.mem_map_of_mem _ hf, ?_⟩
    simp [hk, hgid]

theorem scan_unfold (env : ScanEnv) (cat : List FileMetadata) (rp : Option String)
    (cm dr : Bool)
    (hbase : (resolveBase env rp = "" || !(env.pathExists (resolveBase env rp))) = false) :
    scan_shared_folder env cat rp cm dr =
      .ok
        (((dbMapOf cat).foldl
            (stepDelete (diskMapOf (env.walk (resolveBase env rp))) dr)
            ((diskMapOf (env.walk (resolveBase env rp))).foldl
              (stepDisk (dbMapOf cat) cm dr env.now)
              ⟨cat, maxId cat + 1, ⟨0, 0, 0⟩⟩)).catalog,
         ((dbMapOf cat).foldl
            (stepDelete (diskMapOf (env.walk (resolveBase env rp))) dr)
            ((diskMapOf (env.walk (resolveBase env rp))).foldl
              (stepDisk (dbMapOf cat) cm dr env.now)
              ⟨cat, maxId cat + 1, ⟨0, 0, 0⟩⟩)).stats) := by
  simp only [scan_shared_folder]
  rw [if_neg (by rw [hbase]; exact Bool.false_ne_true)]

theorem scan_error (env : ScanEnv) (cat : List FileMetadata) (rp : Option String)
    (cm dr : Bool)
    (hbase : (resolveBase env rp = "" || !(env.pathExists (resolveBase env rp))) = true) :
    scan_shared_folder env cat rp cm dr =
      .error ("Shared folder path not configured or not found: " ++ resolveBase env rp) := by
  simp only [scan_shared_folder]
  rw [if_pos hbase]

theorem scan_spec (env : ScanEnv) (cat : List FileMetadata) (rp : Option String) (cm : Bool)
    (Hkeys : (cat.map dbKey).Nodup) (Hids : (cat.map (fun f => f.id)).Nodup)
    (hbase : (resolveBase env rp = "" || !(env.pathExists (resolveBase env rp))) = false) :
    scan_shared_folder env cat rp cm false =
      .ok
        ((cat.filter
            (fun f => dictHasKey (diskMapOf (env.walk (resolveBase env rp))) (dbKey f))).map
            (applyUpd (cat.map (fun f => (dbKey f, f)))
              (diskMapOf (env.walk (resolveBase env rp)))) ++
          (if cm then
            newsOf (cat.map (fun f => (dbKey f, f))) env.now
              (diskMapOf (env.walk (resolveBase env rp))) (maxId cat + 1)
          else []),
         ⟨(if cm then
             cntNew (cat.map (fun f => (dbKey f, f)))
               (diskMapOf (env.walk (resolveBase env rp)))
           else 0),
          cntUpd (cat.map (fun f => (dbKey f, f)))
            (diskMapOf (env.walk (resolveBase env rp))),
          cntDel (cat.map (fun f => (dbKey f, f)))
            (diskMapOf (env.walk (resolveBase env rp)))⟩) := by
  rw [scan_unfold env cat rp cm false hbase]
  have hdb : dbMapOf cat = cat.map (fun f => (dbKey f, f)) := dbMapOf_eq Hkeys
  rw [hdb]
  set D := diskMapOf (env.walk (resolveBase env rp)) with hDdef
  set db := cat.map (fun f => (dbKey f, f)) with hdbdef
  set st0 : ScanState := ⟨cat, maxId cat + 1, ⟨0, 0, 0⟩⟩ with hst0
  have hdbids : (db.map (fun p => p.2.id)).Nodup := by
    rw [hdbdef, dbMap_ids]
    exact Hids
  have hDkeys : (D.map Prod.fst).Nodup := by
    rw [hDdef]
    exact diskMapOf_keys_nodup _
  have hn : ∀ p ∈ db, p.2.id < st0.next_id := by
    intro p hp
    rw [hdbdef] at hp
    obtain ⟨f, hf, rfl⟩ := List.mem_map.mp hp
    exact Nat.lt_succ_of_le (le_maxId hf)
  obtain ⟨hc1, hn1⟩ := diskFold_catalog db cm env.now hdbids D st0 hDkeys hn
  have hs1 := diskFold_stats db cm false env.now D st0
  set st1 := D.foldl (stepDisk db cm false env.now) st0 with hst1
  obtain ⟨hc2, _⟩ := delFold_catalog D db st1
  have hs2 := delFold_stats D false db st1
  have hcatalog : (db.foldl (stepDelete D false) st1).catalog
      = (cat.filter (fun f => dictHasKey D (dbKey f))).map (applyUpd db D)
        ++ (if cm then newsOf db env.now D (maxId cat + 1) else []) := by
    rw [hc2, hc1]
    have hc0 : st0.catalog = cat := rfl
    have hn0 : st0.next_id = maxId cat + 1 := rfl
    rw [hc0, hn0]
    rw [List.filter_append]
    have hnews : (if cm then newsOf db env.now D (maxId cat + 1) else []).filter
          (fun g => !(delPred db D g))
        = (if cm then newsOf db env.now D (maxId cat + 1) else []) := by
      cases cm with
      | false => simp
      | true =>
        simp only [if_true]
        have hall : ∀ r ∈ newsOf db env.now D (maxId cat + 1),
            (fun g => !(delPred db D g)) r = (fun _ => true) r := by
          intro r hr
          have hge := newsOf_id_ge db env.now D (maxId cat + 1) r hr
          have hdp : delPred db D r = false := by
            apply delPred_false_of_big
            intro p hp
            exact Nat.ne_of_lt (Nat.lt_of_lt_of_le (hn p hp) hge)
          simp [hdp]
        rw [List.filter_congr hall, List.filter_true]
    rw [hnews]
    congr 1
    rw [List.filter_map]
    apply congrArg
    apply List.filter_congr
    intro f hf
    have hid := applyUpd_id db D f
    have hdmf := delPred_map_form (D := D) Hids hf (applyUpd db D f) hid
    rw [← hdbdef] at hdmf
    simp only [Function.comp]
    rw [hdmf, Bool.not_not]
  have hstats : (db.foldl (stepDelete D false) st1).stats
      = ⟨(if cm then cntNew db D else 0), cntUpd db D, cntDel db D⟩ := by
    rw [hs2, hs1]
    have hst00 : st0.stats = ⟨0, 0, 0⟩ := rfl
    rw [hst00]
    simp
  rw [hcatalog, hstats]

theorem applyUpd_file_name (db : List (String × FileMetadata))
    (D : List (String × DiskFile)) (f : FileMetadata) :
    (applyUpd db D f).file_name = f.file_name := by
  unfold applyUpd
  cases h : updFor db D f.id with
  | none => rfl
  | some d => rfl

theorem applyUpd_dbKey (db : List (String × FileMetadata))
    (D : List (String × DiskFile)) (f : FileMetadata) :
    dbKey (applyUpd db D f) = dbKey f := by
  unfold dbKey
  rw [applyUpd_file_name]

theorem hasKey_of_mem {α : Type} {m : List (String × α)} {p : String × α}
    (hp : p ∈ m) : dictHasKey m p.1 = true := by
  unfold dictHasKey
  rw [List.any_eq_true]
  exact ⟨p, hp, by simp⟩

theorem find?_key_unique {α : Type} {key : α → String} :
    ∀ {l : List α}, (l.map key).Nodup →
    ∀ {g : α}, g ∈ l → ∀ {k : String}, key g = k →
    l.find? (fun x => decide (key x = k)) = some g := by
  intro l
  induction l with
  | nil => intro _ g hg; exact absurd hg (List.not_mem_nil g)
  | cons a l ih =>
    intro hnd g hg k hk
    simp only [List.map_cons, List.nodup_cons] at hnd
    rcases List.mem_cons.mp hg with hga | hgl
    · subst hga
      rw [List.find?_cons_of_pos _ (by simp [hk])]
    · by_cases hak : key a = k
      · exfalso
        apply hnd.1
        rw [hak, ← hk]
        exact List.mem_map_of_mem key hgl
      · rw [List.find?_cons_of_neg _ (by simp [hak])]
        exact ih hnd.2 hgl hk

theorem dictGet_db_of_mem {cat : List FileMetadata} (Hkeys : (cat.map dbKey).Nodup)
    {f : FileMetadata} (hf : f ∈ cat) {k : String} (hk : dbKey f = k) :
    dictGet (cat.map (fun f => (dbKey f, f))) k = some f := by
  rw [dictGet_map_key]
  exact find?_key_unique Hkeys hf hk

theorem updFor_elem {db : List (String × FileMetadata)}
    (Hids : (db.map (fun p => p.2.id)).Nodup) :
    ∀ {D : List (String × DiskFile)}, (D.map Prod.fst).Nodup →
    ∀ {e : String × DiskFile}, e ∈ D →
    ∀ {f : FileMetadata}, dictGet db e.1 = some f →
    updFor db D f.id = (if hitBy db e f.id then some e.2 else none) := by
  intro D
  induction D with
  | nil => intro _ e he; exact absurd he (List.not_mem_nil e)
  | cons e' D ih =>
    intro hnd e he f hget
    simp only [List.map_cons, List.nodup_cons] at hnd
    rcases List.mem_cons.mp he with hee | heD
    · subst hee
      by_cases hb : hitBy db e f.id = true
      · rw [if_pos hb]
        unfold updFor
        rw [List.find?_cons_of_pos (p := fun x => hitBy db x f.id) D hb]
        rfl
      · rw [if_neg hb]
        unfold updFor
        rw [List.find?_cons_of_neg (p := fun x => hitBy db x f.id) D (by simpa using hb)]
        have hnone : updFor db D f.id = none := by
          apply updFor_eq_none
          intro e'' he''
          cases hget'' : dictGet db e''.1 with
          | none => exact hitBy_of_get_none hget'' f.id
          | some f'' =>
            have hne : f''.id ≠ f.id := by
              intro hid
              have hpe : ((e''.1, f'') : String × FileMetadata) = (e.1, f) :=
                List.inj_on_of_nodup_map Hids (dictGet_mem hget'') (dictGet_mem hget)
                  (by simpa using hid)
              have hkeq := congrArg Prod.fst hpe
              simp only [] at hkeq
              exact hnd.1 (hkeq ▸ List.mem_map_of_mem Prod.fst he'')
            simp [hitBy, hget'', hne]
        unfold updFor at hnone
        exact hnone
    · have hb' : hitBy db e' f.id = false := by
        cases hget' : dictGet db e'.1 with
        | none => exact hitBy_of_get_none hget' f.id
        | some f' =>
          have hne : f'.id ≠ f.id := by
            intro hid
            have hpe : ((e'.1, f') : String × FileMetadata) = (e.1, f) :=
              List.inj_on_of_nodup_map Hids (dictGet_mem hget') (dictGet_mem hget)
                (by simpa using hid)
            have hkeq := congrArg Prod.fst hpe
            simp only [] at hkeq
            exact hnd.1 (hkeq ▸ List.mem_map_of_mem Prod.fst heD)
          simp [hitBy, hget', hne]
      unfold updFor
      rw [List.find?_cons_of_neg (p := fun x => hitBy db x f.id) D (by simp [hb'])]
      exact ih hnd.2 heD hget

theorem bslashToSlash_eq_self {s : String} (h : hasBackslash s = false) :
    bslashToSlash s = s := by
  unfold bslashToSlash
  unfold hasBackslash at h
  rw [List.any_eq_false] at h
  have hmap : s.data.map (fun c => if c = '\\' then '/' else c) = s.data.map id := by
    apply List.map_congr_left
    intro c hc
    have hcb := h c hc
    simp only [decide_eq_true_eq] at hcb
    simp [hcb]
  rw [hmap, List.map_id]

theorem dbKey_newRecord {d : DiskFile} (n : Nat) (now : Int)
    (h : hasBackslash d.rel = false) :
    dbKey (newRecord n d now) = diskKey d := by
  unfold dbKey newRecord diskKey
  simp only []
  rw [bslashToSlash_eq_self h]

theorem newsOf_mem_spec (db : List (String × FileMetadata)) (now : Int) :
    ∀ (D : List (String × DiskFile)) (n : Nat) (r : FileMetadata),
    r ∈ newsOf db now D n →
    ∃ e ∈ D, (e.2.stat_ok && !(dictHasKey db e.1)) = true ∧ r = newRecord r.id e.2 now := by
  intro D
  induction D with
  | nil => intro n r hr; exact absurd hr (List.not_mem_nil r)
  | cons e D ih =>
    intro n r hr
    rw [newsOf_cons] at hr
    by_cases hg : (e.2.stat_ok && !(dictHasKey db e.1)) = true
    · rw [if_pos hg] at hr
      rcases List.mem_cons.mp hr with hre | hrD
      · exact ⟨e, List.mem_cons_self e D, hg, by subst hre; rfl⟩
      · obtain ⟨e', he', hge', hre'⟩ := ih (n + 1) r hrD
        exact ⟨e', List.mem_cons_of_mem e he', hge', hre'⟩
    · rw [if_neg hg] at hr
      obtain ⟨e', he', hge', hre'⟩ := ih n r hr
      exact ⟨e', List.mem_cons_of_mem e he', hge', hre'⟩

theorem newsOf_entry_mem (db : List (String × FileMetadata)) (now : Int) :
    ∀ (D : List (String × DiskFile)) (n : Nat) (e : String × DiskFile), e ∈ D →
    (e.2.stat_ok && !(dictHasKey db e.1)) = true →
    ∃ r ∈ newsOf db now D n, r = newRecord r.id e.2 now := by
  intro D
  induction D with
  | nil => intro n e he; exact absurd he (List.not_mem_nil e)
  | cons e' D ih =>
    intro n e he hg
    rw [newsOf_cons]
    by_cases hg' : (e'.2.stat_ok && !(dictHasKey db e'.1)) = true
    · rw [if_pos hg']
      rcases List.mem_cons.mp he with hee | heD
      · subst hee
        exact ⟨newRecord n e.2 now, List.mem_cons_self _ _, rfl⟩
      · obtain ⟨r, hr, hre⟩ := ih (n + 1) e heD hg
        exact ⟨r, List.mem_cons_of_mem _ hr, hre⟩
    · rw [if_neg hg']
      rcases List.mem_cons.mp he with hee | heD
      · exact absurd (hee ▸ hg) hg'
      · exact ih n e heD hg

theorem newsOf_keys (db : List (String × FileMetadata)) (now : Int)
    (files : List DiskFile) (hbs : ∀ d ∈ files, hasBackslash d.rel = false) :
    ∀ (D : List (String × DiskFile)) (n : Nat),
    (∀ e ∈ D, e.1 = diskKey e.2 ∧ e.2 ∈ files) →
    (newsOf db now D n).map dbKey =
      (D.filter (fun e => e.2.stat_ok && !(dictHasKey db e.1))).map Prod.fst := by
  intro D
  induction D with
  | nil => intro n _; rfl
  | cons e D ih =>
    intro n hwf
    rw [newsOf_cons]
    by_cases hg : (e.2.stat_ok && !(dictHasKey db e.1)) = true
    · rw [if_pos hg, List.filter_cons, if_pos hg]
      simp only [List.map_cons]
      rw [ih (n + 1) (fun e' he' => hwf e' (List.mem_cons_of_mem e he'))]
      have hk : dbKey (newRecord n e.2 now) = e.1 := by
        rw [dbKey_newRecord n now (hbs e.2 (hwf e (List.mem_cons_self e D)).2)]
        exact (hwf e (List.mem_cons_self e D)).1.symm
      rw [hk]
    · rw [if_neg hg, List.filter_cons, if_neg hg]
      exact ih n (fun e' he' => hwf e' (List.mem_cons_of_mem e he'))

theorem newsOf_ids_nodup (db : List (String × FileMetadata)) (now : Int) :
    ∀ (D : List (String × DiskFile)) (n : Nat),
    ((newsOf db now D n).map (fun f => f.id)).Nodup := by
  intro D
  induction D with
  | nil => intro n; exact List.nodup_nil
  | cons e D ih =>
    intro n
    rw [newsOf_cons]
    by_cases hg : (e.2.stat_ok && !(dictHasKey db e.1)) = true
    · rw [if_pos hg]
      simp only [List.map_cons, List.nodup_cons]
      refine ⟨?_, ih (n + 1)⟩
      intro hmem
      obtain ⟨r, hr, hrid⟩ := List.mem_map.mp hmem
      have hge := newsOf_id_ge db now D (n + 1) r hr
      have : (newRecord n e.2 now).id = n := rfl
      rw [this] at hrid
      omega
    · rw [if_neg hg]
      exact ih n

/-- The catalog produced by a successful non-dry reconciliation run
(closed form established by `scan_spec`). -/
def scanCatalog (env : ScanEnv) (cat : List FileMetadata) (rp : Option String)
    (cm : Bool) : List FileMetadata :=
  (cat.filter
      (fun f => dictHasKey (diskMapOf (env.walk (resolveBase env rp))) (dbKey f))).map
      (applyUpd (cat.map (fun f => (dbKey f, f)))
        (diskMapOf (env.walk (resolveBase env rp)))) ++
    (if cm then
      newsOf (cat.map (fun f => (dbKey f, f))) env.now
        (diskMapOf (env.walk (resolveBase env rp))) (maxId cat + 1)
    else [])

/-- The counters returned by a non-dry reconciliation run (closed form). -/
def scanStats (env : ScanEnv) (cat : List FileMetadata) (rp : Option String)
    (cm : Bool) : Stats :=
  ⟨(if cm then
      cntNew (cat.map (fun f => (dbKey f, f))) (diskMapOf (env.walk (resolveBase env rp)))
    else 0),
   cntUpd (cat.map (fun f => (dbKey f, f))) (diskMapOf (env.walk (resolveBase env rp))),
   cntDel (cat.map (fun f => (dbKey f, f))) (diskMapOf (env.walk (resolveBase env rp)))⟩

theorem scan_spec' (env : ScanEnv) (cat : List FileMetadata) (rp : Option String)
    (cm : Bool)
    (Hkeys : (cat.map dbKey).Nodup) (Hids : (cat.map (fun f => f.id)).Nodup)
    (hbase : (resolveBase env rp = "" || !(env.pathExists (resolveBase env rp))) = false) :
    scan_shared_folder env cat rp cm false =
      .ok (scanCatalog env cat rp cm, scanStats env cat rp cm) :=
  scan_spec env cat rp cm Hkeys Hids hbase

theorem scanCatalog_keys_nodup (env : ScanEnv) (cat : List FileMetadata)
    (rp : Option String) (cm : Bool)
    (Hkeys : (cat.map dbKey).Nodup)
    (Hbs : WfDisk (env.walk (resolveBase env rp))) :
    ((scanCatalog env cat rp cm).map dbKey).Nodup := by
  unfold scanCatalog
  rw [List.map_append, List.nodup_append]
  refine ⟨?_, ?_, ?_⟩
  · rw [List.map_map]
    simp only [Function.comp_def]
    rw [List.map_congr_left
      (fun f _ => applyUpd_dbKey (cat.map (fun f => (dbKey f, f)))
        (diskMapOf (env.walk (resolveBase env rp))) f)]
    exact List.Nodup.sublist (List.Sublist.map dbKey (List.filter_sublist cat)) Hkeys
  · cases cm with
    | false => simp
    | true =>
      simp only [if_true]
      rw [newsOf_keys _ _ _ Hbs _ _
        (fun e he => (diskMapOf_wf e he))]
      exact List.Nodup.sublist
        (List.Sublist.map Prod.fst (List.filter_sublist _))
        (diskMapOf_keys_nodup _)
  · intro a ha1 ha2
    rw [List.map_map] at ha1
    obtain ⟨f, hf, hfa⟩ := List.mem_map.mp ha1
    have hfa' : dbKey f = a := by
      have : dbKey (applyUpd (cat.map (fun f => (dbKey f, f)))
          (diskMapOf (env.walk (resolveBase env rp))) f) = a := hfa
      rw [applyUpd_dbKey] at this
      exact this
    cases cm with
    | false => simp at ha2
    | true =>
      simp only [if_true] at ha2
      rw [newsOf_keys _ _ _ Hbs _ _ (fun e he => (diskMapOf_wf e he))] at ha2
      obtain ⟨e, he, hea⟩ := List.mem_map.mp ha2
      rw [List.mem_filter] at he
      have hnk : dictHasKey (cat.map (fun f => (dbKey f, f))) e.1 = false := by
        have := he.2
        simp only [Bool.and_eq_true, Bool.not_eq_true'] at this
        exact this.2
      have hk : dictHasKey (cat.map (fun f => (dbKey f, f))) e.1 = true := by
        rw [hea, ← hfa']
        exact hasKey_of_mem
          (List.mem_map_of_mem (fun f => (dbKey f, f)) (List.mem_filter.mp hf).1)
      rw [hnk] at hk
      exact Bool.noConfusion hk

theorem scanCatalog_ids_nodup (env : ScanEnv) (cat : List FileMetadata)
    (rp : Option String) (cm : Bool)
    (Hids : (cat.map (fun f => f.id)).Nodup) :
    ((scanCatalog env cat rp cm).map (fun f => f.id)).Nodup := by
  unfold scanCatalog
  rw [List.map_append, List.nodup_append]
  refine ⟨?_, ?_, ?_⟩
  · rw [List.map_map]
    simp only [Function.comp_def]
    rw [List.map_congr_left
      (fun f _ => applyUpd_id (cat.map (fun f => (dbKey f, f)))
        (diskMapOf (env.walk (resolveBase env rp))) f)]
    exact List.Nodup.sublist
      (List.Sublist.map (fun f => f.id) (List.filter_sublist cat)) Hids
  · cases cm with
    | false => simp
    | true =>
      simp only [if_true]
      exact newsOf_ids_nodup _ _ _ _
  · intro a ha1 ha2
    rw [List.map_map] at ha1
    obtain ⟨f, hf, hfa⟩ := List.mem_map.mp ha1
    have hfa' : f.id = a := by
      have : (applyUpd (cat.map (fun f => (dbKey f, f)))
          (diskMapOf (env.walk (resolveBase env rp))) f).id = a := hfa
      rw [applyUpd_id] at this
      exact this
    cases cm with
    | false => simp at ha2
    | true =>
      simp only [if_true] at ha2
      obtain ⟨r, hr, hra⟩ := List.mem_map.mp ha2
      have hge := newsOf_id_ge _ _ _ _ r hr
      have hle : f.id ≤ maxId cat := le_maxId (List.mem_filter.mp hf).1
      rw [hra] at hge
      rw [← hfa'] at hge
      omega

theorem scanCatalog_mem {env : ScanEnv} {cat : List FileMetadata} {rp : Option String}
    {cm : Bool} {g : FileMetadata} (hg : g ∈ scanCatalog env cat rp cm) :
    (∃ f ∈ cat,
      dictHasKey (diskMapOf (env.walk (resolveBase env rp))) (dbKey f) = true ∧
      g = applyUpd (cat.map (fun f => (dbKey f, f)))
            (diskMapOf (env.walk (resolveBase env rp))) f) ∨
    (cm = true ∧ ∃ e ∈ diskMapOf (env.walk (resolveBase env rp)),
      (e.2.stat_ok && !(dictHasKey (cat.map (fun f => (dbKey f, f))) e.1)) = true ∧
      g = newRecord g.id e.2 env.now ∧ maxId cat + 1 ≤ g.id) := by
  unfold scanCatalog at hg
  rcases List.mem_append.mp hg with h1 | h2
  · obtain ⟨f, hf, hfe⟩ := List.mem_map.mp h1
    obtain ⟨hfc, hfk⟩ := List.mem_filter.mp hf
    exact Or.inl ⟨f, hfc, hfk, hfe.symm⟩
  · cases cm with
    | false => simp at h2
    | true =>
      simp only [if_true] at h2
      have hge' := newsOf_id_ge _ _ _ _ g h2
      obtain ⟨e, he, hge, hre⟩ := newsOf_mem_spec _ _ _ _ g h2
      exact Or.inr ⟨rfl, e, he, hge, hre, hge'⟩

theorem second_run_get (env : ScanEnv) (cat : List FileMetadata) (rp : Option String)
    (cm : Bool)
    (Hkeys : (cat.map dbKey).Nodup) (Hids : (cat.map (fun f => f.id)).Nodup)
    (Hbs : WfDisk (env.walk (resolveBase env rp))) :
    ∀ e ∈ diskMapOf (env.walk (resolveBase env rp)), e.2.stat_ok = true →
    (∃ g, dictGet ((scanCatalog env cat rp cm).map (fun f => (dbKey f, f))) e.1 = some g ∧
        should_update g.last_modified_date e.2.mtime = false) ∨
    (cm = false ∧
      dictGet ((scanCatalog env cat rp cm).map (fun f => (dbKey f, f))) e.1 = none) := by
  intro e he hstat
  have hKeys2 := scanCatalog_keys_nodup env cat rp cm Hkeys Hbs
  by_cases hk : dictHasKey (cat.map (fun f => (dbKey f, f))) e.1 = true
  · left
    have hgetex : ∃ f, dictGet (cat.map (fun f => (dbKey f, f))) e.1 = some f := by
      cases hgg : dictGet (cat.map (fun f => (dbKey f, f))) e.1 with
      | none =>
        rw [(dictGet_eq_none_iff _ _).mp hgg] at hk
        exact Bool.noConfusion hk
      | some f => exact ⟨f, rfl⟩
    obtain ⟨f, hget⟩ := hgetex
    have hmem := dictGet_mem hget
    obtain ⟨f', hf', hpe⟩ := List.mem_map.mp hmem
    have hff : f' = f := congrArg Prod.snd hpe
    have hkey : dbKey f = e.1 := by
      rw [← hff]
      have := congrArg Prod.fst hpe
      simpa using this
    rw [hff] at hf'
    have hfilter : f ∈ cat.filter
        (fun f => dictHasKey (diskMapOf (env.walk (resolveBase env rp))) (dbKey f)) :=
      List.mem_filter.mpr ⟨hf', by rw [hkey]; exact hasKey_of_mem he⟩
    have hgmem : applyUpd (cat.map (fun f => (dbKey f, f)))
        (diskMapOf (env.walk (resolveBase env rp))) f ∈ scanCatalog env cat rp cm :=
      List.mem_append_left _ (List.mem_map_of_mem _ hfilter)
    have hgkey : dbKey (applyUpd (cat.map (fun f => (dbKey f, f)))
        (diskMapOf (env.walk (resolveBase env rp))) f) = e.1 := by
      rw [applyUpd_dbKey]
      exact hkey
    have hget2 := dictGet_db_of_mem hKeys2 hgmem hgkey
    refine ⟨_, hget2, ?_⟩
    have hdbids : ((cat.map (fun f => (dbKey f, f))).map (fun p => p.2.id)).Nodup := by
      rw [dbMap_ids]
      exact Hids
    have hupd := updFor_elem hdbids (diskMapOf_keys_nodup _) he hget
    by_cases hsu : should_update f.last_modified_date e.2.mtime = true
    · have hhit : hitBy (cat.map (fun f => (dbKey f, f))) e f.id = true := by
        simp [hitBy, hstat, hget, hsu]
      have hgp : applyUpd (cat.map (fun f => (dbKey f, f)))
          (diskMapOf (env.walk (resolveBase env rp))) f = patch f e.2 := by
        unfold applyUpd
        rw [hupd, if_pos hhit]
      rw [hgp]
      show should_update (some e.2.mtime) e.2.mtime = false
      simp only [should_update, THRESHOLD, decide_eq_false_iff_not, not_lt]
      omega
    · have hhit : hitBy (cat.map (fun f => (dbKey f, f))) e f.id = false := by
        simp only [hitBy, hget, Bool.and_eq_true, decide_eq_true_eq]
        simp [Bool.eq_false_iff.mpr hsu]
      have hgp : applyUpd (cat.map (fun f => (dbKey f, f)))
          (diskMapOf (env.walk (resolveBase env rp))) f = f := by
        unfold applyUpd
        rw [hupd, if_neg (by simp [hhit])]
      rw [hgp]
      exact Bool.eq_false_iff.mpr hsu
  · have hkf : dictHasKey (cat.map (fun f => (dbKey f, f))) e.1 = false :=
      Bool.eq_false_iff.mpr hk
    cases cm with
    | true =>
      left
      have hgate : (e.2.stat_ok && !(dictHasKey (cat.map (fun f => (dbKey f, f))) e.1))
          = true := by
        simp [hstat, hkf]
      obtain ⟨r, hr, hre⟩ := newsOf_entry_mem (cat.map (fun f => (dbKey f, f))) env.now
        (diskMapOf (env.walk (resolveBase env rp))) (maxId cat + 1) e he hgate
      have hrmem : r ∈ scanCatalog env cat rp true :=
        List.mem_append_right _ (by simp only [if_true]; exact hr)
      have hrkey : dbKey r = e.1 := by
        rw [hre, dbKey_newRecord _ _ (Hbs e.2 (diskMapOf_wf e he).2)]
        exact (diskMapOf_wf e he).1.symm
      have hget2 := dictGet_db_of_mem hKeys2 hrmem hrkey
      refine ⟨r, hget2, ?_⟩
      rw [hre]
      show should_update (some e.2.mtime) e.2.mtime = false
      simp only [should_update, THRESHOLD, decide_eq_false_iff_not, not_lt]
      omega
    | false =>
      right
      refine ⟨rfl, ?_⟩
      rw [dictGet_map_key]
      have hnone : (scanCatalog env cat rp false).find?
          (fun x => decide (dbKey x = e.1)) = none := by
        rw [List.find?_eq_none]
        intro g hg hcontra
        simp only [decide_eq_true_eq] at hcontra
        rcases scanCatalog_mem hg with ⟨f, hf, _, hge⟩ | ⟨hcm, _⟩
        · have hgf : dbKey f = e.1 := by
            rw [← hcontra, hge, applyUpd_dbKey]
          have hyes : dictHasKey (cat.map (fun f => (dbKey f, f))) (dbKey f) = true :=
            hasKey_of_mem (List.mem_map_of_mem (fun f => (dbKey f, f)) hf)
          rw [hgf, hkf] at hyes
          exact Bool.noConfusion hyes
        · exact Bool.noConfusion hcm
      rw [hnone]

theorem scanStats_second_zero (env : ScanEnv) (cat : List FileMetadata)
    (rp : Option String) (cm : Bool)
    (Hkeys : (cat.map dbKey).Nodup) (Hids : (cat.map (fun f => f.id)).Nodup)
    (Hbs : WfDisk (env.walk (resolveBase env rp))) :
    scanStats env (scanCatalog env cat rp cm) rp cm = ⟨0, 0, 0⟩ := by
  have hdel : cntDel ((scanCatalog env cat rp cm).map (fun f => (dbKey f, f)))
      (diskMapOf (env.walk (resolveBase env rp))) = 0 := by
    unfold cntDel
    rw [List.countP_eq_zero]
    intro p hp hcontra
    obtain ⟨g, hg, hpe⟩ := List.mem_map.mp hp
    have hkey : dictHasKey (diskMapOf (env.walk (resolveBase env rp))) (dbKey g) = true := by
      rcases scanCatalog_mem hg with ⟨f, hf, hfk, hge⟩ | ⟨hcm, e, he, hgate, hre, _⟩
      · rw [hge, applyUpd_dbKey]
        exact hfk
      · rw [hre, dbKey_newRecord _ _ (Hbs e.2 (diskMapOf_wf e he).2)]
        have hhk := hasKey_of_mem he
        rw [(diskMapOf_wf e he).1] at hhk
        exact hhk
    have hc2 : dictHasKey (diskMapOf (env.walk (resolveBase env rp))) (dbKey g) = false := by
      have hcc : (!(dictHasKey (diskMapOf (env.walk (resolveBase env rp))) p.1)) = true :=
        hcontra
      rw [← hpe] at hcc
      simpa using hcc
    rw [hkey] at hc2
    exact Bool.noConfusion hc2
  have hupd0 : cntUpd ((scanCatalog env cat rp cm).map (fun f => (dbKey f, f)))
      (diskMapOf (env.walk (resolveBase env rp))) = 0 := by
    unfold cntUpd
    rw [List.countP_eq_zero]
    intro e he hcontra
    simp only [Bool.and_eq_true] at hcontra
    obtain ⟨hstat, hmatch⟩ := hcontra
    cases hget2 : dictGet ((scanCatalog env cat rp cm).map (fun f => (dbKey f, f))) e.1 with
    | none =>
      rw [hget2] at hmatch
      exact Bool.noConfusion hmatch
    | some g =>
      rw [hget2] at hmatch
      rcases second_run_get env cat rp cm Hkeys Hids Hbs e he hstat with
        ⟨g', hget', hsu'⟩ | ⟨_, hnone⟩
      · rw [hget2] at hget'
        have hgg : g = g' := by injection hget'
        have hmatch' : should_update g.last_modified_date e.2.mtime = true := hmatch
        rw [← hgg] at hsu'
        rw [hsu'] at hmatch'
        exact Bool.noConfusion hmatch'
      · rw [hget2] at hnone
        exact Option.noConfusion hnone
  have hnew0 : (if cm then
      cntNew ((scanCatalog env cat rp cm).map (fun f => (dbKey f, f)))
        (diskMapOf (env.walk (resolveBase env rp)))
    else 0) = 0 := by
    cases cm with
    | false => rfl
    | true =>
      simp only [if_true]
      unfold cntNew
      rw [List.countP_eq_zero]
      intro e he hcontra
      simp only [Bool.and_eq_true] at hcontra
      obtain ⟨hstat, hnk⟩ := hcontra
      have hnk' : dictHasKey ((scanCatalog env cat rp true).map (fun f => (dbKey f, f))) e.1
          = false := by
        simpa using hnk
      rcases second_run_get env cat rp true Hkeys Hids Hbs e he hstat with
        ⟨g', hget', _⟩ | ⟨hcm, _⟩
      · rw [dictHasKey_of_get_some hget'] at hnk'
        exact Bool.noConfusion hnk'
      · exact Bool.noConfusion hcm
  unfold scanStats
  rw [hdel, hupd0, hnew0]

theorem base_ok_of_ok {env : ScanEnv} {cat : List FileMetadata} {rp : Option String}
    {cm dr : Bool} {r : List FileMetadata × Stats}
    (h : scan_shared_folder env cat rp cm dr = .ok r) :
    (resolveBase env rp = "" || !(env.pathExists (resolveBase env rp))) = false := by
  cases hb : (resolveBase env rp = "" || !(env.pathExists (resolveBase env rp))) with
  | false => rfl
  | true =>
    rw [scan_error env cat rp cm dr hb] at h
    exact Except.noConfusion h

theorem scan_dry_spec (env : ScanEnv) (cat : List FileMetadata) (rp : Option String)
    (cm : Bool)
    (hbase : (resolveBase env rp = "" || !(env.pathExists (resolveBase env rp))) = false) :
    scan_shared_folder env cat rp cm true =
      .ok (cat,
        ⟨0, cntUpd (dbMapOf cat) (diskMapOf (env.walk (resolveBase env rp))),
         cntDel (dbMapOf cat) (diskMapOf (env.walk (resolveBase env rp)))⟩) := by
  rw [scan_unfold env cat rp cm true hbase]
  obtain ⟨hdc, hdn⟩ := diskFold_dry (dbMapOf cat) cm env.now
    (diskMapOf (env.walk (resolveBase env rp))) ⟨cat, maxId cat + 1, ⟨0, 0, 0⟩⟩
  have hds := diskFold_stats (dbMapOf cat) cm true env.now
    (diskMapOf (env.walk (resolveBase env rp))) ⟨cat, maxId cat + 1, ⟨0, 0, 0⟩⟩
  obtain ⟨hec, _⟩ := delFold_dry (diskMapOf (env.walk (resolveBase env rp))) (dbMapOf cat)
    ((diskMapOf (env.walk (resolveBase env rp))).foldl
      (stepDisk (dbMapOf cat) cm true env.now) ⟨cat, maxId cat + 1, ⟨0, 0, 0⟩⟩)
  have hes := delFold_stats (diskMapOf (env.walk (resolveBase env rp))) true (dbMapOf cat)
    ((diskMapOf (env.walk (resolveBase env rp))).foldl
      (stepDisk (dbMapOf cat) cm true env.now) ⟨cat, maxId cat + 1, ⟨0, 0, 0⟩⟩)
  rw [hec, hes, hdc, hds]
  simp

theorem scan_nondry_stats (env : ScanEnv) (cat : List FileMetadata) (rp : Option String)
    (cm : Bool)
    (hbase : (resolveBase env rp = "" || !(env.pathExists (resolveBase env rp))) = false) :
    ∃ c : List FileMetadata,
      scan_shared_folder env cat rp cm false =
        .ok (c,
          ⟨(if cm then cntNew (dbMapOf cat) (diskMapOf (env.walk (resolveBase env rp)))
            else 0),
           cntUpd (dbMapOf cat) (diskMapOf (env.walk (resolveBase env rp))),
           cntDel (dbMapOf cat) (diskMapOf (env.walk (resolveBase env rp)))⟩) := by
  rw [scan_unfold env cat rp cm false hbase]
  have hds := diskFold_stats (dbMapOf cat) cm false env.now
    (diskMapOf (env.walk (resolveBase env rp))) ⟨cat, maxId cat + 1, ⟨0, 0, 0⟩⟩
  have hes := delFold_stats (diskMapOf (env.walk (resolveBase env rp))) false (dbMapOf cat)
    ((diskMapOf (env.walk (resolveBase env rp))).foldl
      (stepDisk (dbMapOf cat) cm false env.now) ⟨cat, maxId cat + 1, ⟨0, 0, 0⟩⟩)
  refine ⟨(List.foldl (stepDelete (diskMapOf (env.walk (resolveBase env rp))) false)
      (List.foldl (stepDisk (dbMapOf cat) cm false env.now)
        ⟨cat, maxId cat + 1, ⟨0, 0, 0⟩⟩ (diskMapOf (env.walk (resolveBase env rp))))
      (dbMapOf cat)).catalog, ?_⟩
  rw [hes, hds]
  simp

theorem cntDel_map_form (cat : List FileMetadata) (D : List (String × DiskFile)) :
    cntDel (cat.map (fun f => (dbKey f, f))) D
      = cat.countP (fun f => !(dictHasKey D (dbKey f))) := by
  unfold cntDel
  rw [List.countP_map]
  rfl

theorem countP_key_eq_one {l : List FileMetadata} (hnd : (l.map dbKey).Nodup)
    {g : FileMetadata} (hg : g ∈ l) {k : String} (hk : dbKey g = k) :
    l.countP (fun x => decide (dbKey x = k)) = 1 := by
  induction l with
  | nil => cases hg
  | cons a l ih =>
    simp only [List.map_cons, List.nodup_cons] at hnd
    rw [List.countP_cons]
    rcases List.mem_cons.mp hg with hga | hgl
    · subst hga
      have h0 : l.countP (fun x => decide (dbKey x = k)) = 0 := by
        rw [List.countP_eq_zero]
        intro b hb hcb
        simp only [decide_eq_true_eq] at hcb
        apply hnd.1
        rw [hk, ← hcb]
        exact List.mem_map_of_mem dbKey hb
      rw [h0, if_pos (by simp [hk])]
    · have ha : dbKey a ≠ k := by
        intro hak
        apply hnd.1
        rw [hak, ← hk]
        exact List.mem_map_of_mem dbKey hgl
      rw [ih hnd.2 hgl, if_neg (by simp [ha])]

/-! ### Concrete fixtures used by witnesses and counterexamples -/

/-- A disk file whose stored counterpart differs only by letter case. -/
def dW : DiskFile := ⟨"Report.txt", 7, 200, true⟩

/-- Environment with a single shared folder `/shared` holding `dW`. -/
def envW : ScanEnv :=
  ⟨"/", "", fun s => decide (s = "/shared"), fun s => if s = "/shared" then [dW] else [], 900⟩

/-- A catalog record matching `dW` case-insensitively, stale by 100 seconds. -/
def recW : FileMetadata := ⟨1, "report.txt", 10, "txt", some 4, 50, some 100, some 2, some 4, 3⟩

/-- Like `recW` but whose stored instant is within the tolerance of `dW`. -/
def recW2 : FileMetadata := ⟨1, "report.txt", 10, "txt", some 4, 50, some 199, some 2, some 4, 3⟩

/-- Catalog record used by the C3/C8 fixtures. -/
def recA : FileMetadata := ⟨1, "File.txt", 10, "txt", none, 0, some 100, none, none, 0⟩

/-- A second record whose name differs from `recA` only by case. -/
def recB : FileMetadata := ⟨2, "file.txt", 11, "txt", some 7, 0, some 100, some 3, some 7, 5⟩

/-- Environment whose shared folder `/shared` is empty. -/
def envC3 : ScanEnv := ⟨"/home/app", "", fun s => decide (s = "/shared"), fun _ => [], 1000⟩

/-- A single untracked disk file, for the creation/dry-run fixtures. -/
def dC2 : DiskFile := ⟨"notes.txt", 5, 100, true⟩

/-- Environment whose shared folder `/shared` holds only `dC2`. -/
def envC2 : ScanEnv :=
  ⟨"/", "", fun s => decide (s = "/shared"), fun s => if s = "/shared" then [dC2] else [], 500⟩

/-- Environment where only the working directory `/home/app` exists. -/
def envC8 : ScanEnv :=
  ⟨"/home/app", "", fun s => decide (s = "/home/app"), fun _ => [], 0⟩

/-- Upload environment: the disk holds `/shared/report.txt`. -/
def envC10 : UploadEnv := ⟨"/shared", ["/shared/report.txt"], 1000, "20250101000000"⟩

/-- Catalog record backing `/shared/report.txt`. -/
def recC : FileMetadata := ⟨1, "report.txt", 10, "txt", none, 0, some 100, none, none, 0⟩

/-! ### Claims -/

/-- C1: for every disk entry whose case-folded relative path is present in the
catalog, a non-dry reconcile classifies the pair as updated exactly when the
record has no stored instant or the disk mtime (UTC) exceeds the stored
instant plus the 2-second tolerance — in that case the record becomes
`patch f e.2` — and otherwise the pairing is a no-op: the unique record with
that primary key is returned completely untouched.  In particular a disk
mtime of `T+1` is a no-op and `T+3` is an update. -/
theorem C1_matched_update_classification
    (env : ScanEnv) (cat : List FileMetadata) (rp : Option String) (cm : Bool)
    (c1 : List FileMetadata) (s : Stats) (t0 : Int)
    (Hkeys : (cat.map dbKey).Nodup) (Hids : (cat.map (fun f => f.id)).Nodup)
    (hrun : scan_shared_folder env cat rp cm false = .ok (c1, s))
    (e : String × DiskFile) (he : e ∈ diskMapOf (env.walk (resolveBase env rp)))
    (hstat : e.2.stat_ok = true)
    (f : FileMetadata) (hf : f ∈ cat) (hkey : dbKey f = e.1) :
    ∃ g ∈ c1,
      g.id = f.id ∧
      g = (if should_update f.last_modified_date e.2.mtime then patch f e.2 else f) ∧
      (∀ g' ∈ c1, g'.id = f.id → g' = g) ∧
      (should_update f.last_modified_date e.2.mtime = true ↔
        (f.last_modified_date = none ∨
          ∃ t, f.last_modified_date = some t ∧ e.2.mtime > t + 2)) ∧
      should_update (some t0) (t0 + 1) = false ∧
      should_update (some t0) (t0 + 3) = true := by
  have hbase := base_ok_of_ok hrun
  rw [scan_spec' env cat rp cm Hkeys Hids hbase] at hrun
  have hpair : (scanCatalog env cat rp cm, scanStats env cat rp cm) = (c1, s) := by
    injection hrun
  rw [Prod.mk.injEq] at hpair
  obtain ⟨hc, _⟩ := hpair
  subst hc
  have hget : dictGet (cat.map (fun f => (dbKey f, f))) e.1 = some f :=
    dictGet_db_of_mem Hkeys hf hkey
  have hfilter : f ∈ cat.filter
      (fun f => dictHasKey (diskMapOf (env.walk (resolveBase env rp))) (dbKey f)) :=
    List.mem_filter.mpr ⟨hf, by rw [hkey]; exact hasKey_of_mem he⟩
  have hgmem : applyUpd (cat.map (fun f => (dbKey f, f)))
      (diskMapOf (env.walk (resolveBase env rp))) f ∈ scanCatalog env cat rp cm :=
    List.mem_append_left _ (List.mem_map_of_mem _ hfilter)
  have hdbids : ((cat.map (fun f => (dbKey f, f))).map (fun p => p.2.id)).Nodup := by
    rw [dbMap_ids]
    exact Hids
  have hupd := updFor_elem hdbids (diskMapOf_keys_nodup _) he hget
  have hval : applyUpd (cat.map (fun f => (dbKey f, f)))
      (diskMapOf (env.walk (resolveBase env rp))) f
      = (if should_update f.last_modified_date e.2.mtime then patch f e.2 else f) := by
    unfold applyUpd
    rw [hupd]
    by_cases hsu : should_update f.last_modified_date e.2.mtime = true
    · rw [if_pos (show hitBy (cat.map (fun f => (dbKey f, f))) e f.id = true by
        simp [hitBy, hstat, hget, hsu]), if_pos hsu]
    · have hsu' := Bool.eq_false_iff.mpr hsu
      rw [if_neg (show ¬ hitBy (cat.map (fun f => (dbKey f, f))) e f.id = true by
        simp [hitBy, hget, hsu']), if_neg hsu]
  refine ⟨_, hgmem, applyUpd_id _ _ f, hval, ?_, ?_, ?_, ?_⟩
  · intro g' hg' hid'
    exact List.inj_on_of_nodup_map (scanCatalog_ids_nodup env cat rp cm Hids) hg' hgmem
      (by simpa [applyUpd_id] using hid')
  · cases hl : f.last_modified_date with
    | none => simp [should_update]
    | some t => simp [should_update, THRESHOLD]
  · simp only [should_update, THRESHOLD, decide_eq_false_iff_not, not_lt]
    omega
  · simp only [should_update, THRESHOLD, decide_eq_true_eq]
    omega

/-- Witness for C1 at a concrete matched pair: catalog holds `recW`
(stored instant 100), disk mtime is 200, so the pair is an update. -/
theorem C1_witness :
    ∃ g ∈ [patch recW dW],
      g.id = recW.id ∧
      g = (if should_update recW.last_modified_date dW.mtime then patch recW dW else recW) ∧
      (∀ g' ∈ [patch recW dW], g'.id = recW.id → g' = g) ∧
      (should_update recW.last_modified_date dW.mtime = true ↔
        (recW.last_modified_date = none ∨
          ∃ t, recW.last_modified_date = some t ∧ dW.mtime > t + 2)) ∧
      should_update (some 100) (100 + 1) = false ∧
      should_update (some 100) (100 + 3) = true :=
  C1_matched_update_classification envW [recW] (some ("/shared")) false
    [patch recW dW] ⟨0, 1, 0⟩ 100 (by decide) (by decide) rfl
    ("report.txt", dW) (by decide) rfl recW (by decide) rfl

/-- C4: on an update classification (non-dry), reconcile writes exactly the
three fields size, last-modified instant and modifier (cleared to none
regardless of prior value), and leaves the identity, name, type, uploader,
team, access counter and upload date of the record unchanged. -/
theorem C4_update_writes_exactly_three_fields
    (env : ScanEnv) (cat : List FileMetadata) (rp : Option String) (cm : Bool)
    (c1 : List FileMetadata) (s : Stats)
    (Hkeys : (cat.map dbKey).Nodup) (Hids : (cat.map (fun f => f.id)).Nodup)
    (hrun : scan_shared_folder env cat rp cm false = .ok (c1, s))
    (e : String × DiskFile) (he : e ∈ diskMapOf (env.walk (resolveBase env rp)))
    (hstat : e.2.stat_ok = true)
    (f : FileMetadata) (hf : f ∈ cat) (hkey : dbKey f = e.1)
    (hsu : should_update f.last_modified_date e.2.mtime = true) :
    ∃ g ∈ c1,
      g.id = f.id ∧
      g.file_size = e.2.size ∧
      g.last_modified_date = some e.2.mtime ∧
      g.modified_by = none ∧
      g.file_name = f.file_name ∧
      g.file_type = f.file_type ∧
      g.uploaded_by = f.uploaded_by ∧
      g.team = f.team ∧
      g.access_count = f.access_count ∧
      g.upload_date = f.upload_date := by
  have hbase := base_ok_of_ok hrun
  rw [scan_spec' env cat rp cm Hkeys Hids hbase] at hrun
  have hpair : (scanCatalog env cat rp cm, scanStats env cat rp cm) = (c1, s) := by
    injection hrun
  rw [Prod.mk.injEq] at hpair
  obtain ⟨hc, _⟩ := hpair
  subst hc
  have hget : dictGet (cat.map (fun f => (dbKey f, f))) e.1 = some f :=
    dictGet_db_of_mem Hkeys hf hkey
  have hfilter : f ∈ cat.filter
      (fun f => dictHasKey (diskMapOf (env.walk (resolveBase env rp))) (dbKey f)) :=
    List.mem_filter.mpr ⟨hf, by rw [hkey]; exact hasKey_of_mem he⟩
  have hgmem : applyUpd (cat.map (fun f => (dbKey f, f)))
      (diskMapOf (env.walk (resolveBase env rp))) f ∈ scanCatalog env cat rp cm :=
    List.mem_append_left _ (List.mem_map_of_mem _ hfilter)
  have hdbids : ((cat.map (fun f => (dbKey f, f))).map (fun p => p.2.id)).Nodup := by
    rw [dbMap_ids]
    exact Hids
  have hupd := updFor_elem hdbids (diskMapOf_keys_nodup _) he hget
  have hval : applyUpd (cat.map (fun f => (dbKey f, f)))
      (diskMapOf (env.walk (resolveBase env rp))) f = patch f e.2 := by
    unfold applyUpd
    rw [hupd]
    rw [if_pos (show hitBy (cat.map (fun f => (dbKey f, f))) e f.id = true by
      simp [hitBy, hstat, hget, hsu])]
  refine ⟨_, hgmem, ?_⟩
  rw [hval]
  exact ⟨rfl, rfl, rfl, rfl, rfl, rfl, rfl, rfl, rfl, rfl⟩

/-- Witness for C4: the update of `recW` by `dW` rewrites size/mtime/modifier
and preserves every other field. -/
theorem C4_witness :
    ∃ g ∈ [patch recW dW],
      g.id = recW.id ∧
      g.file_size = dW.size ∧
      g.last_modified_date = some dW.mtime ∧
      g.modified_by = none ∧
      g.file_name = recW.file_name ∧
      g.file_type = recW.file_type ∧
      g.uploaded_by = recW.uploaded_by ∧
      g.team = recW.team ∧
      g.access_count = recW.access_count ∧
      g.upload_date = recW.upload_date :=
  C4_update_writes_exactly_three_fields envW [recW] (some ("/shared")) false
    [patch recW dW] ⟨0, 1, 0⟩ (by decide) (by decide) rfl
    ("report.txt", dW) (by decide) rfl recW (by decide) rfl (by decide)

/-- C5: a statable disk entry whose case-folded key is absent from the
catalog is added by a non-dry run exactly when `create_missing` is true; the
created record carries the disk-cased relative path, the disk size, the
derived lowercase extension, no uploader, no modifier, no team and the disk
mtime.  A dry run never changes the catalog. -/
theorem C5_creation_gating
    (env : ScanEnv) (cat : List FileMetadata) (rp : Option String) (cm : Bool)
    (c1 : List FileMetadata) (s : Stats)
    (Hkeys : (cat.map dbKey).Nodup) (Hids : (cat.map (fun f => f.id)).Nodup)
    (hrun : scan_shared_folder env cat rp cm false = .ok (c1, s))
    (e : String × DiskFile) (he : e ∈ diskMapOf (env.walk (resolveBase env rp)))
    (hstat : e.2.stat_ok = true)
    (habsent : ∀ f ∈ cat, dbKey f ≠ e.1) :
    (cm = true → ∃ g ∈ c1,
        g.file_name = e.2.rel ∧
        g.file_size = e.2.size ∧
        g.file_type = fileTypeOf e.2.rel ∧
        g.uploaded_by = none ∧
        g.modified_by = none ∧
        g.team = none ∧
        g.last_modified_date = some e.2.mtime) ∧
    (cm = false → ∀ g ∈ c1, dbKey g ≠ e.1) ∧
    (∀ r', scan_shared_folder env cat rp cm true = .ok r' → r'.1 = cat) := by
  have hbase := base_ok_of_ok hrun
  rw [scan_spec' env cat rp cm Hkeys Hids hbase] at hrun
  have hpair : (scanCatalog env cat rp cm, scanStats env cat rp cm) = (c1, s) := by
    injection hrun
  rw [Prod.mk.injEq] at hpair
  obtain ⟨hc, _⟩ := hpair
  subst hc
  have hkf : dictHasKey (cat.map (fun f => (dbKey f, f))) e.1 = false := by
    rw [dictHasKey_map_key, List.any_eq_false]
    intro f hf
    simp only [decide_eq_true_eq]
    exact habsent f hf
  refine ⟨?_, ?_, ?_⟩
  · intro hcm
    subst hcm
    have hgate : (e.2.stat_ok && !(dictHasKey (cat.map (fun f => (dbKey f, f))) e.1))
        = true := by
      simp [hstat, hkf]
    obtain ⟨r, hr, hre⟩ := newsOf_entry_mem (cat.map (fun f => (dbKey f, f))) env.now
      (diskMapOf (env.walk (resolveBase env rp))) (maxId cat + 1) e he hgate
    refine ⟨r, List.mem_append_right _ (by simp only [if_true]; exact hr), ?_⟩
    rw [hre]
    exact ⟨rfl, rfl, rfl, rfl, rfl, rfl, rfl⟩
  · intro hcm g hg hkeq
    subst hcm
    rcases scanCatalog_mem hg with ⟨f, hf, _, hge⟩ | ⟨hcm', _⟩
    · have hgf : dbKey g = dbKey f := by rw [hge, applyUpd_dbKey]
      exact habsent f hf (by rw [← hgf, hkeq])
    · exact Bool.noConfusion hcm'
  · intro r' hdry
    rw [scan_dry_spec env cat rp cm hbase] at hdry
    cases r' with
    | mk rc rs =>
      have hp : (cat,
          (⟨0, cntUpd (dbMapOf cat) (diskMapOf (env.walk (resolveBase env rp))),
            cntDel (dbMapOf cat) (diskMapOf (env.walk (resolveBase env rp)))⟩ : Stats))
          = (rc, rs) := by injection hdry
      rw [Prod.mk.injEq] at hp
      exact hp.1.symm

/-- Witness for C5: `/shared/notes.txt` is untracked; with
`create_missing = true` the run creates exactly the disk-derived record,
and a dry run leaves the (empty) catalog unchanged. -/
theorem C5_witness :
    (true = true → ∃ g ∈ [newRecord 1 dC2 500],
        g.file_name = dC2.rel ∧
        g.file_size = dC2.size ∧
        g.file_type = fileTypeOf dC2.rel ∧
        g.uploaded_by = none ∧
        g.modified_by = none ∧
        g.team = none ∧
        g.last_modified_date = some dC2.mtime) ∧
    (true = false → ∀ g ∈ [newRecord 1 dC2 500], dbKey g ≠ "notes.txt") ∧
    (∀ r', scan_shared_folder envC2 [] (some ("/shared")) true true = .ok r' → r'.1 = []) :=
  C5_creation_gating envC2 [] (some ("/shared")) true [newRecord 1 dC2 500] ⟨1, 0, 0⟩
    (by decide) (by decide) rfl ("notes.txt", dC2) (by decide) rfl
    (by intro f hf; cases hf)

/-- C6: a catalog record whose case-folded key has no disk counterpart is
removed by a non-dry run regardless of `create_missing`, and the deleted
counter counts exactly the catalog records without a disk counterpart —
in particular it is positive here. -/
theorem C6_unconditional_deletion
    (env : ScanEnv) (cat : List FileMetadata) (rp : Option String) (cm : Bool)
    (c1 : List FileMetadata) (s : Stats)
    (Hkeys : (cat.map dbKey).Nodup) (Hids : (cat.map (fun f => f.id)).Nodup)
    (hrun : scan_shared_folder env cat rp cm false = .ok (c1, s))
    (f : FileMetadata) (hf : f ∈ cat)
    (habsent : dictHasKey (diskMapOf (env.walk (resolveBase env rp))) (dbKey f) = false) :
    (∀ g ∈ c1, g.id ≠ f.id) ∧
    s.deleted = cat.countP
      (fun f' => !(dictHasKey (diskMapOf (env.walk (resolveBase env rp))) (dbKey f'))) ∧
    0 < s.deleted := by
  have hbase := base_ok_of_ok hrun
  rw [scan_spec' env cat rp cm Hkeys Hids hbase] at hrun
  have hpair : (scanCatalog env cat rp cm, scanStats env cat rp cm) = (c1, s) := by
    injection hrun
  rw [Prod.mk.injEq] at hpair
  obtain ⟨hc, hs⟩ := hpair
  subst hc
  subst hs
  have hdel : (scanStats env cat rp cm).deleted = cat.countP
      (fun f' => !(dictHasKey (diskMapOf (env.walk (resolveBase env rp))) (dbKey f'))) := by
    show cntDel (cat.map (fun f => (dbKey f, f))) (diskMapOf (env.walk (resolveBase env rp)))
      = _
    exact cntDel_map_form cat _
  refine ⟨?_, hdel, ?_⟩
  · intro g hg hid
    rcases scanCatalog_mem hg with ⟨f', hf', hk', hge⟩ | ⟨_, e, he, hgate, hre, hgid⟩
    · have hid' : f'.id = f.id := by rw [← hid, hge, applyUpd_id]
      have hfe : f' = f := List.inj_on_of_nodup_map Hids hf' hf (by simpa using hid')
      rw [hfe, habsent] at hk'
      exact Bool.noConfusion hk'
    · have hle : f.id ≤ maxId cat := le_maxId hf
      rw [hid] at hgid
      omega
  · rw [hdel]
    rw [List.countP_pos_iff]
    exact ⟨f, hf, by simp [habsent]⟩

/-- Witness for C6: `recA` has no backing file in the empty `/shared`, is
removed by the run, and is counted as deleted. -/
theorem C6_witness :
    (∀ g ∈ ([] : List FileMetadata), g.id ≠ recA.id) ∧
    (⟨0, 0, 1⟩ : Stats).deleted = [recA].countP
      (fun f' => !(dictHasKey (diskMapOf (envC3.walk (resolveBase envC3 (some ("/shared")))))
        (dbKey f'))) ∧
    0 < (⟨0, 0, 1⟩ : Stats).deleted :=
  C6_unconditional_deletion envC3 [recA] (some ("/shared")) false [] ⟨0, 0, 1⟩
    (by decide) (by decide) rfl recA (by decide) (by decide)

/-- C7: a catalog record and a statable disk entry whose keys agree after
case folding are the same identity: the record survives the run under its
primary key with its stored casing preserved, the result holds exactly one
record with that case-folded key, and the pair is counted neither among the
created entries (its key is in the catalog map) nor among the deleted ones
(its key is in the disk map). -/
theorem C7_case_insensitive_identity
    (env : ScanEnv) (cat : List FileMetadata) (rp : Option String) (cm : Bool)
    (c1 : List FileMetadata) (s : Stats)
    (Hkeys : (cat.map dbKey).Nodup) (Hids : (cat.map (fun f => f.id)).Nodup)
    (Hbs : WfDisk (env.walk (resolveBase env rp)))
    (hrun : scan_shared_folder env cat rp cm false = .ok (c1, s))
    (e : String × DiskFile) (he : e ∈ diskMapOf (env.walk (resolveBase env rp)))
    (_hstat : e.2.stat_ok = true)
    (f : FileMetadata) (hf : f ∈ cat) (hkey : dbKey f = e.1) :
    (∃ g ∈ c1, g.id = f.id ∧ g.file_name = f.file_name) ∧
    c1.countP (fun g => decide (dbKey g = dbKey f)) = 1 ∧
    s.created = (if cm then
      cntNew (cat.map (fun f => (dbKey f, f))) (diskMapOf (env.walk (resolveBase env rp)))
    else 0) ∧
    (e.2.stat_ok && !(dictHasKey (cat.map (fun f => (dbKey f, f))) e.1)) = false ∧
    s.deleted = cat.countP
      (fun f' => !(dictHasKey (diskMapOf (env.walk (resolveBase env rp))) (dbKey f'))) ∧
    (!(dictHasKey (diskMapOf (env.walk (resolveBase env rp))) (dbKey f))) = false := by
  have hbase := base_ok_of_ok hrun
  rw [scan_spec' env cat rp cm Hkeys Hids hbase] at hrun
  have hpair : (scanCatalog env cat rp cm, scanStats env cat rp cm) = (c1, s) := by
    injection hrun
  rw [Prod.mk.injEq] at hpair
  obtain ⟨hc, hs⟩ := hpair
  subst hc
  subst hs
  have hfilter : f ∈ cat.filter
      (fun f => dictHasKey (diskMapOf (env.walk (resolveBase env rp))) (dbKey f)) :=
    List.mem_filter.mpr ⟨hf, by rw [hkey]; exact hasKey_of_mem he⟩
  have hgmem : applyUpd (cat.map (fun f => (dbKey f, f)))
      (diskMapOf (env.walk (resolveBase env rp))) f ∈ scanCatalog env cat rp cm :=
    List.mem_append_left _ (List.mem_map_of_mem _ hfilter)
  have hdk : dictHasKey (diskMapOf (env.walk (resolveBase env rp))) (dbKey f) = true := by
    rw [hkey]
    exact hasKey_of_mem he
  have hck : dictHasKey (cat.map (fun f => (dbKey f, f))) e.1 = true := by
    rw [← hkey]
    exact hasKey_of_mem (List.mem_map_of_mem (fun f => (dbKey f, f)) hf)
  refine ⟨⟨_, hgmem, applyUpd_id _ _ f, applyUpd_file_name _ _ f⟩, ?_, rfl, ?_, ?_, ?_⟩
  · exact countP_key_eq_one (scanCatalog_keys_nodup env cat rp cm Hkeys Hbs) hgmem
      (applyUpd_dbKey _ _ f)
  · simp [hck]
  · show cntDel (cat.map (fun f => (dbKey f, f)))
      (diskMapOf (env.walk (resolveBase env rp))) = _
    exact cntDel_map_form cat _
  · simp [hdk]

/-- Witness for C7: the catalog name `report.txt` and the disk name
`Report.txt` are matched as one identity; the pair is neither created nor
deleted. -/
theorem C7_witness :
    (∃ g ∈ [patch recW dW], g.id = recW.id ∧ g.file_name = recW.file_name) ∧
    ([patch recW dW]).countP (fun g => decide (dbKey g = dbKey recW)) = 1 ∧
    (⟨0, 1, 0⟩ : Stats).created = (if false then
      cntNew ([recW].map (fun f => (dbKey f, f)))
        (diskMapOf (envW.walk (resolveBase envW (some ("/shared")))))
    else 0) ∧
    (dW.stat_ok && !(dictHasKey ([recW].map (fun f => (dbKey f, f))) "report.txt")) = false ∧
    (⟨0, 1, 0⟩ : Stats).deleted = [recW].countP
      (fun f' => !(dictHasKey (diskMapOf (envW.walk (resolveBase envW (some ("/shared")))))
        (dbKey f'))) ∧
    (!(dictHasKey (diskMapOf (envW.walk (resolveBase envW (some ("/shared")))))
      (dbKey recW))) = false :=
  C7_case_insensitive_identity envW [recW] (some ("/shared")) false
    [patch recW dW] ⟨0, 1, 0⟩ (by decide) (by decide) (by unfold WfDisk; decide) rfl
    ("report.txt", dW) (by decide) rfl recW (by decide) rfl

/-- Counterexample to C2 as stated: against an empty catalog and one
untracked disk file with `create_missing = true`, the dry run returns
`created = 0` while the non-dry run returns `created = 1` — the dry-run
counts do not equal the non-dry counts. -/
theorem C2_counterexample :
    scan_shared_folder envC2 [] (some ("/shared")) true true = .ok ([], ⟨0, 0, 0⟩) ∧
    scan_shared_folder envC2 [] (some ("/shared")) true false
      = .ok ([newRecord 1 dC2 500], ⟨1, 0, 0⟩) ∧
    (⟨0, 0, 0⟩ : Stats).created ≠ (⟨1, 0, 0⟩ : Stats).created :=
  ⟨rfl, rfl, by decide⟩

/-- C2 (amended): a dry run mutates nothing — the catalog is returned
exactly as it was — and its updated and deleted counts equal those of the
corresponding non-dry run; its created count, however, is always 0 (the
source increments `stats['created']` only inside the
`create_missing and not dry_run` branch). -/
theorem C2_dry_run_amended
    (env : ScanEnv) (cat : List FileMetadata) (rp : Option String) (cm : Bool)
    (r : List FileMetadata × Stats)
    (hdry : scan_shared_folder env cat rp cm true = .ok r) :
    r.1 = cat ∧ r.2.created = 0 ∧
    ∃ r2, scan_shared_folder env cat rp cm false = .ok r2 ∧
      r.2.updated = r2.2.updated ∧ r.2.deleted = r2.2.deleted := by
  have hbase := base_ok_of_ok hdry
  rw [scan_dry_spec env cat rp cm hbase] at hdry
  cases r with
  | mk rc rs =>
    have hp : (cat,
        (⟨0, cntUpd (dbMapOf cat) (diskMapOf (env.walk (resolveBase env rp))),
          cntDel (dbMapOf cat) (diskMapOf (env.walk (resolveBase env rp)))⟩ : Stats))
        = (rc, rs) := by injection hdry
    rw [Prod.mk.injEq] at hp
    obtain ⟨hc, hs⟩ := hp
    subst hc
    subst hs
    obtain ⟨c2, h2⟩ := scan_nondry_stats env cat rp cm hbase
    exact ⟨rfl, rfl,
      (c2, ⟨(if cm then cntNew (dbMapOf cat) (diskMapOf (env.walk (resolveBase env rp)))
          else 0),
        cntUpd (dbMapOf cat) (diskMapOf (env.walk (resolveBase env rp))),
        cntDel (dbMapOf cat) (diskMapOf (env.walk (resolveBase env rp)))⟩),
      h2, rfl, rfl⟩

/-- Witness for the amended C2 at the creation fixture: the dry run
classifies without mutating and reports `created = 0`. -/
theorem C2_amended_witness :
    (([] : List FileMetadata), (⟨0, 0, 0⟩ : Stats)).1 = ([] : List FileMetadata) ∧
    (([] : List FileMetadata), (⟨0, 0, 0⟩ : Stats)).2.created = 0 ∧
    ∃ r2, scan_shared_folder envC2 [] (some ("/shared")) true false = .ok r2 ∧
      (⟨0, 0, 0⟩ : Stats).updated = r2.2.updated ∧
      (⟨0, 0, 0⟩ : Stats).deleted = r2.2.deleted :=
  C2_dry_run_amended envC2 [] (some ("/shared")) true ([], ⟨0, 0, 0⟩) rfl

/-- Counterexample to C3 as stated: a catalog holding two records whose
names differ only by letter case ("File.txt" and "file.txt") against an
empty disk.  The case-folded `db_map` retains only the later record, so the
first run deletes one record and the second run — over an unchanged
filesystem — still deletes the shadowed one and returns `deleted = 1`,
not `{0, 0, 0}`. -/
theorem C3_counterexample :
    scan_shared_folder envC3 [recA, recB] (some ("/shared")) false false
      = .ok ([recA], ⟨0, 0, 1⟩) ∧
    scan_shared_folder envC3 [recA] (some ("/shared")) false false
      = .ok ([], ⟨0, 0, 1⟩) ∧
    (⟨0, 0, 1⟩ : Stats) ≠ ⟨0, 0, 0⟩ :=
  ⟨rfl, rfl, by decide⟩

/-- C3 (amended): reconcile is idempotent for catalogs whose case-folded
keys and primary keys are duplicate-free and disk trees whose relative
paths contain no backslash: after one successful non-dry run, an
immediately following run with the same arguments over the unchanged
filesystem returns `{created := 0, updated := 0, deleted := 0}`. -/
theorem C3_idempotent_amended
    (env : ScanEnv) (cat : List FileMetadata) (rp : Option String) (cm : Bool)
    (c1 : List FileMetadata) (s1 : Stats)
    (Hkeys : (cat.map dbKey).Nodup) (Hids : (cat.map (fun f => f.id)).Nodup)
    (Hbs : WfDisk (env.walk (resolveBase env rp)))
    (hrun : scan_shared_folder env cat rp cm false = .ok (c1, s1)) :
    ∃ c2, scan_shared_folder env c1 rp cm false = .ok (c2, ⟨0, 0, 0⟩) := by
  have hbase := base_ok_of_ok hrun
  rw [scan_spec' env cat rp cm Hkeys Hids hbase] at hrun
  have hpair : (scanCatalog env cat rp cm, scanStats env cat rp cm) = (c1, s1) := by
    injection hrun
  rw [Prod.mk.injEq] at hpair
  obtain ⟨hc, _⟩ := hpair
  subst hc
  have Hkeys2 := scanCatalog_keys_nodup env cat rp cm Hkeys Hbs
  have Hids2 := scanCatalog_ids_nodup env cat rp cm Hids
  refine ⟨scanCatalog env (scanCatalog env cat rp cm) rp cm, ?_⟩
  rw [scan_spec' env (scanCatalog env cat rp cm) rp cm Hkeys2 Hids2 hbase]
  rw [scanStats_second_zero env cat rp cm Hkeys Hids Hbs]

/-- Witness for the amended C3: after the run that updates `recW` from
disk, a second run reports all-zero counters. -/
theorem C3_amended_witness :
    ∃ c2, scan_shared_folder envW [patch recW dW] (some ("/shared")) false false
      = .ok (c2, ⟨0, 0, 0⟩) :=
  C3_idempotent_amended envW [recW] (some ("/shared")) false [patch recW dW] ⟨0, 1, 0⟩
    (by decide) (by decide) (by unfold WfDisk; decide) rfl

/-- C8 (code bug): with an empty/unset root path the source never raises —
`os.path.abspath('')` silently resolves to the working directory, the guard
`not base` can no longer fire, and the scan runs against the CWD, here
deleting the record; only a nonexistent nonempty path raises the error. -/
theorem C8_empty_root_scans_cwd :
    scan_shared_folder envC8 [recA] none false false = .ok ([], ⟨0, 0, 1⟩) ∧
    scan_shared_folder envC8 [recA] (some ("")) false false = .ok ([], ⟨0, 0, 1⟩) ∧
    scan_shared_folder envC8 [recA] (some ("/nope")) false false
      = .error ("Shared folder path not configured or not found: /nope") :=
  ⟨rfl, rfl, rfl⟩

/-- C9 (code bug): `rel.lstrip('./')` strips every leading character of the
set `{'.', '/'}`, so a dotfile `.env` directly under the base normalizes to
`env`, not `.env` — while ordinary nested paths are preserved with their
casing. -/
theorem C9_lstrip_eats_leading_dots :
    normalize_relpath "/" "/shared/.env" "/shared" = "env" ∧
    ("env" : String) ≠ ".env" ∧
    normalize_relpath "/" "/shared/docs/Readme.txt" "/shared" = "docs/Readme.txt" :=
  ⟨rfl, by decide, rfl⟩

/-- Counterexample to C10 as stated: starting from a catalog satisfying
case-folded uniqueness and a disk holding `/shared/report.txt`, an
authenticated upload of `Report.TXT` passes the exact-path existence check
(the target `/shared/Report.TXT` differs from the disk path on a
case-sensitive filesystem) and inserts a second record whose case-folded
relative path equals the existing one. -/
theorem C10_counterexample :
    foldedUnique [recC] ∧
    ¬ foldedUnique (perform_create envC10 [recC] 4 2 "Report.TXT" 5).1 := by
  constructor
  · unfold foldedUnique
    decide
  · unfold foldedUnique
    decide

/-- C10 (amended): reconciliation preserves the case-folded-uniqueness
invariant — a non-dry run on a catalog with duplicate-free case-folded keys
and primary keys, over a backslash-free disk tree, yields a catalog with
duplicate-free case-folded keys — but the authenticated upload path does
not enforce it (see the counterexample). -/
theorem C10_reconcile_preserves_uniqueness
    (env : ScanEnv) (cat : List FileMetadata) (rp : Option String) (cm : Bool)
    (c1 : List FileMetadata) (s : Stats)
    (Hu : foldedUnique cat) (Hids : (cat.map (fun f => f.id)).Nodup)
    (Hbs : WfDisk (env.walk (resolveBase env rp)))
    (hrun : scan_shared_folder env cat rp cm false = .ok (c1, s)) :
    foldedUnique c1 := by
  have hbase := base_ok_of_ok hrun
  rw [scan_spec' env cat rp cm Hu Hids hbase] at hrun
  have hpair : (scanCatalog env cat rp cm, scanStats env cat rp cm) = (c1, s) := by
    injection hrun
  rw [Prod.mk.injEq] at hpair
  obtain ⟨hc, _⟩ := hpair
  subst hc
  exact scanCatalog_keys_nodup env cat rp cm Hu Hbs

/-- Witness for the amended C10: the catalog created by reconciling one
untracked file satisfies case-folded uniqueness. -/
theorem C10_amended_witness : foldedUnique [newRecord 1 dC2 500] :=
  C10_reconcile_preserves_uniqueness envC2 [] (some ("/shared")) true
    [newRecord 1 dC2 500] ⟨1, 0, 0⟩ (by unfold foldedUnique; decide) (by decide)
    (by unfold WfDisk; decide) rfl
